import Mathlib

/-!
# disruptor-- : the example driver (`examples/example.cc`)

A shallow embedding of the n-producers / m-consumers example: the `consume`
loop, the `produce` loop, the bookkeeping of `runOnce` and the set-up done by
`main`.

Conventions.
* Unsigned 64-bit arithmetic (`size_t`) wraps modulo `2^64`; conversions
  between `int64_t`, `size_t` and `int` are written out (`u64`, `s64`, `s32`).
* Sequence numbers and event counters (`next_seq`, `available_seq`,
  `localSum`, `exitCtr`, the loop variable `i`) are integers (`Int`): they can
  leave their type only by signed overflow after some `2^63` slot reads, or
  `2^31` empty polls in a row, which is undefined behaviour and lies outside the
  model.
* The loops of `produce` are different: a narrow `int` induction variable is
  compared against a 64-bit bound, so that a single batch can take it to the end
  of its type.  They run in `Except Fault`, where `Fault.signedOverflow` is the
  undefined behaviour of a signed increment leaving its type, and
  `Fault.outOfFuel` is the model running out of fuel.
* `disruptor/sequencer.h` is not part of the sources.  What `consume` gets
  back from `WaitFor`, `GetHighestPublishedSequence` and `operator[]` is a
  parameter; `Claim`, `Publish` and the cursor follow the specification.
-/

namespace Disruptor

/-! ## Machine integers -/

/-- Conversion of an integer to `size_t` / `uint64_t` (reduction modulo `2^64`). -/
def u64 (x : Int) : Nat := (x % 2 ^ 64).toNat

/-- Conversion of an unsigned 64-bit value to `int64_t` (two's complement). -/
def s64 (x : Nat) : Int :=
  if x % 2 ^ 64 < 2 ^ 63 then ((x % 2 ^ 64 : Nat) : Int) else ((x % 2 ^ 64 : Nat) : Int) - 2 ^ 64

/-- Conversion of an unsigned 64-bit value to `int` (two's complement, 32 bits). -/
def s32 (x : Nat) : Int :=
  if x % 2 ^ 32 < 2 ^ 31 then ((x % 2 ^ 32 : Nat) : Int) else ((x % 2 ^ 32 : Nat) : Int) - 2 ^ 32

/-- Largest value of `int`. -/
def INT_MAX : Int := 2 ^ 31 - 1

/-- Smallest value of `int64_t`. -/
def INT64_MIN : Int := -(2 ^ 63)

/-- Largest value of `int64_t`. -/
def INT64_MAX : Int := 2 ^ 63 - 1

/-- Ways in which a run of the model can fail to produce a state. -/
inductive Fault where
  | signedOverflow
  | outOfFuel
  deriving DecidableEq, Repr

instance instDecidableEqExcept {ε α : Type} [DecidableEq ε] [DecidableEq α] :
    DecidableEq (Except ε α)
  | .ok a, .ok b => if h : a = b then isTrue (by rw [h]) else isFalse (fun h2 => h (by cases h2; rfl))
  | .error a, .error b =>
    if h : a = b then isTrue (by rw [h]) else isFalse (fun h2 => h (by cases h2; rfl))
  | .ok _, .error _ => isFalse (fun h => by cases h)
  | .error _, .ok _ => isFalse (fun h => by cases h)

/-! ## Constants of the sequencer -/

/-- Modelled from the spec: `disruptor::kInitialCursorValue` of the absent
`disruptor/sequencer.h`, "Sentinel values: kInitialCursorValue = -1". -/
def kInitialCursorValue : Int := -1

/-- Modelled from the spec: `disruptor::kFirstSequenceValue` of the absent
`disruptor/sequencer.h`, "kFirstSequenceValue = 0". -/
def kFirstSequenceValue : Int := 0

/-! ## `consume` -/

/-- What a consumer thread does that other code can observe, in program order. -/
inductive Event where
  | waitFor (target : Int)
  | highestPublished (low high : Int)
  | read (i : Int)
  | setSequence (v : Int)
  | sleep
  deriving DecidableEq, Repr

/-- The local variables of `consume`, the consumer's own gating `Sequence`
(`seq`), whether the loop has been left through `break`, and the trace of
calls made so far. -/
structure Consumer where
  next_seq : Int
  exitCtr : Int
  localSum : Int
  seq : Int
  exited : Bool
  trace : List Event
  deriving DecidableEq, Repr

/-- State of `consume` on reaching `while (true)` for the first time. -/
def Consumer.init : Consumer :=
  { next_seq := kFirstSequenceValue, exitCtr := 0, localSum := 0,
    seq := kInitialCursorValue, exited := false, trace := [] }

/-- The loop `for (int64_t i = next_seq; i <= available_seq; ++i) localSum += s[i];`
started at `i`; `slot i` is the value read from `s[i]`. -/
def readLoop (slot : Int → Int) (available_seq : Int) : Nat → Int → Consumer → Consumer
  | 0, _, c => c
  | fuel + 1, i, c =>
    if i ≤ available_seq then
      readLoop slot available_seq fuel (i + 1)
        { c with localSum := c.localSum + slot i, trace := c.trace ++ [Event.read i] }
    else c

/-- One pass through the body of `while (true)` in `consume`; `w` is what
`barrier->WaitFor(next_seq, ...)` returns in this pass and `h` what
`s.GetHighestPublishedSequence(next_seq, w)` returns if it is called. -/
def consumeStep (expectedValue : Int) (slot : Int → Int) (w h : Int) (c : Consumer) : Consumer :=
  let c1 := { c with trace := c.trace ++ [Event.waitFor c.next_seq] }
  if w < c.next_seq then c1
  else
    let c2 := { c1 with trace := c1.trace ++ [Event.highestPublished c.next_seq w] }
    if h < c.next_seq then
      let c3 := { c2 with exitCtr := c2.exitCtr + 1 }
      if c3.exitCtr > 10 then { c3 with trace := c3.trace ++ [Event.sleep] } else c3
    else
      let c3 := readLoop slot h (h + 1 - c.next_seq).toNat c.next_seq c2
      let c4 := { c3 with seq := h, trace := c3.trace ++ [Event.setSequence h] }
      if h = expectedValue then { c4 with exited := true }
      else { c4 with next_seq := h + 1, exitCtr := 0 }

/-- The loop `while (true)` of `consume`, driven by the list of results of
its successive passes; it stops at `break`. -/
def consumeLoop (expectedValue : Int) (slot : Int → Int) : List (Int × Int) → Consumer → Consumer
  | [], c => c
  | (w, h) :: rest, c =>
    if c.exited then c
    else consumeLoop expectedValue slot rest (consumeStep expectedValue slot w h c)

/-- The function `consume` up to the results in `results`. -/
def consume (expectedValue : Int) (slot : Int → Int) (results : List (Int × Int)) : Consumer :=
  consumeLoop expectedValue slot results Consumer.init

/-! ## Observations on the trace of a consumer -/

/-- Sequences whose slot has been read, in the order of the reads. -/
def readsOf : List Event → List Int
  | [] => []
  | Event.read i :: es => i :: readsOf es
  | _ :: es => readsOf es

/-- Values stored into the consumer's gating `Sequence`, in order. -/
def storesOf : List Event → List Int
  | [] => []
  | Event.setSequence v :: es => v :: storesOf es
  | _ :: es => storesOf es

/-- Targets of the `WaitFor` calls, in order. -/
def waitTargets : List Event → List Int
  | [] => []
  | Event.waitFor t :: es => t :: waitTargets es
  | _ :: es => waitTargets es

/-- The sequences `0, 1, ..., n - 1` in ascending order (empty when `n ≤ 0`). -/
def upTo (n : Int) : List Int := (List.range n.toNat).map (fun (k : Nat) => (k : Int))

/-! ## The sequencer as `produce` sees it -/

/-- Product of two `size_t` values. -/
def mul64 (a b : Nat) : Nat := (a * b) % 2 ^ 64

/-- Difference of two `size_t` values. -/
def sub64 (a b : Nat) : Nat := (a % 2 ^ 64 + 2 ^ 64 - b % 2 ^ 64) % 2 ^ 64

/-- The part of a `disruptor::Sequencer` that the producers act on: the claim
counter, the cursor, and logs of the `Claim` results, of the slot assignments
`s[k] = v` (as pairs `(k, v)`) and of the `Publish(sequence, delta)` calls. -/
structure Sequencer where
  next : Int
  cursor : Int
  claimed : List Int
  writes : List (Int × Int)
  published : List (Int × Nat)
  deriving DecidableEq, Repr

/-- A sequencer as constructed in `runOnce`. -/
def Sequencer.init : Sequencer :=
  { next := kInitialCursorValue, cursor := kInitialCursorValue, claimed := [], writes := [],
    published := [] }

/-- Modelled from the spec: `Sequencer::Claim` of the absent
`disruptor/sequencer.h`.  "Claim: `next += delta`; ... return `next`", "Returns
the last sequence in the reserved range", "Initial cursor value: `-1`.  First
claimed sequence: `0`"; successive claims reserve consecutive disjoint batches.
The wait for room in the ring is not modelled. -/
def Sequencer.Claim (s : Sequencer) (delta : Nat) : Int × Sequencer :=
  let n := s.next + (delta : Int)
  (n, { s with next := n, claimed := s.claimed ++ [n] })

/-- Modelled from the spec: `Sequencer::Publish` of the absent
`disruptor/sequencer.h`.  "Publish: store `sequence` into cursor" (single
producer and v1), "advance the cursor ... if the new value is higher" (v2): the
cursor becomes the larger of its value and `sequence`. -/
def Sequencer.Publish (s : Sequencer) (sequence : Int) (delta : Nat) : Sequencer :=
  { s with cursor := max s.cursor sequence, published := s.published ++ [(sequence, delta)] }

/-- Modelled from the spec: `Sequencer::GetCursor` of the absent
`disruptor/sequencer.h`, "acquire-load of the cursor". -/
def Sequencer.GetCursor (s : Sequencer) : Int := s.cursor

/-- The assignment `s[k] = v`. -/
def Sequencer.write (s : Sequencer) (k v : Int) : Sequencer :=
  { s with writes := s.writes ++ [(k, v)] }

/-! ## `produce` -/

/-- The loop `for (int k = 0; k <= sequence; ++k) s[k] = k;` of the first
batch.  `k` is an `int`: `++k` at `INT_MAX` is a signed overflow. -/
def firstBatchLoop (sequence : Int) : Nat → Int → Sequencer → Except Fault Sequencer
  | 0, _, _ => .error Fault.outOfFuel
  | fuel + 1, k, s =>
    if k ≤ sequence then
      if k + 1 ≤ INT_MAX then firstBatchLoop sequence fuel (k + 1) (s.write k k)
      else .error Fault.signedOverflow
    else .ok s

/-- The loop `for (int64_t k = sequence; k > sequence - delta; --k) s[k] = k;`.
`sequence - delta` and the comparison are unsigned (`delta` is a `size_t`);
`--k` at the smallest `int64_t` is a signed overflow. -/
def batchLoop (sequence : Int) (delta : Nat) : Nat → Int → Sequencer → Except Fault Sequencer
  | 0, _, _ => .error Fault.outOfFuel
  | fuel + 1, k, s =>
    if u64 k > sub64 (u64 sequence) delta then
      if INT64_MIN ≤ k - 1 then batchLoop sequence delta fuel (k - 1) (s.write k k)
      else .error Fault.signedOverflow
    else .ok s

/-- The body of the loop of `produce` after `int64_t sequence = s.Claim(delta);`.
The test `sequence < delta` compares as unsigned. -/
def produceBody (delta : Nat) (sequence : Int) (s : Sequencer) : Except Fault Sequencer :=
  if u64 sequence < delta then
    (firstBatchLoop sequence ((sequence + 1).toNat + 1) 0 s).map
      (fun s1 => s1.Publish sequence delta)
  else
    (batchLoop sequence delta (delta + 1) sequence s).map
      (fun s1 => s1.Publish sequence delta)

/-- One pass through the loop of `produce`. -/
def produceIteration (delta : Nat) (s : Sequencer) : Except Fault Sequencer :=
  produceBody delta (s.Claim delta).1 (s.Claim delta).2

/-- The value of `int iterations = counter * RING_BUFFER_SIZE;`. -/
def iterations (counter RING_BUFFER_SIZE : Nat) : Int := s32 (mul64 counter RING_BUFFER_SIZE)

/-- The loop `for (int64_t i = 0; i < iterations; ++i)` of `produce`, from `i`. -/
def produceLoop (delta : Nat) (iters : Int) : Nat → Int → Sequencer → Except Fault Sequencer
  | 0, _, _ => .error Fault.outOfFuel
  | fuel + 1, i, s =>
    if i < iters then
      match produceIteration delta s with
      | .ok s1 => produceLoop delta iters fuel (i + 1) s1
      | .error e => .error e
    else .ok s

/-- The function `produce`, with the globals `counter`, `RING_BUFFER_SIZE` and
`delta` as arguments. -/
def produce (counter RING_BUFFER_SIZE delta : Nat) (s : Sequencer) : Except Fault Sequencer :=
  produceLoop delta (iterations counter RING_BUFFER_SIZE)
    ((iterations counter RING_BUFFER_SIZE).toNat + 1) 0 s

/-! ## `runOnce` and `main` -/

/-- The producer threads of `runOnce`: the shared sequencer, the loop variable
`i` of each of the `np` threads, and the thread behind each `Claim` call so far. -/
structure Producers where
  seqr : Sequencer
  i : List Int
  callers : List Nat
  deriving DecidableEq, Repr

/-- The `np` producer threads when `runOnce` has just started them. -/
def Producers.init (np : Nat) : Producers :=
  { seqr := Sequencer.init, i := List.replicate np 0, callers := [] }

/-- Thread `t` goes once through the loop of `produce`; nothing happens if it
has already left the loop, or if there is no thread `t`. -/
def producerStep (delta : Nat) (iters : Int) (t : Nat) (p : Producers) : Except Fault Producers :=
  match p.i[t]? with
  | none => .ok p
  | some i =>
    if i < iters then
      (produceIteration delta p.seqr).map
        (fun s1 => { seqr := s1, i := p.i.set t (i + 1), callers := p.callers ++ [t] })
    else .ok p

/-- The producer threads run interleaved: `schedule` lists the threads in the
order in which they go through their loop.  A pass of the loop is taken as one
step: `Claim` is atomic in the sequencer, and the batch a pass writes and
publishes depends on nothing but the sequence it has claimed. -/
def runProducers (delta : Nat) (iters : Int) : List Nat → Producers → Except Fault Producers
  | [], p => .ok p
  | t :: rest, p =>
    match producerStep delta iters t p with
    | .ok p1 => runProducers delta iters rest p1
    | .error e => .error e

/-- Every producer thread has left its loop (the threads can be joined). -/
def Producers.finished (iters : Int) (p : Producers) : Prop := ∀ x ∈ p.i, ¬ x < iters

instance (iters : Int) (p : Producers) : Decidable (p.finished iters) := by
  unfold Producers.finished
  infer_instance

/-- The operation `sum.fetch_add(v)` on the `std::atomic<int64_t>`: atomic
arithmetic wraps in two's complement. -/
def fetch_add (sum v : Int) : Int := s64 (u64 (sum + v))

/-- The value of the global `sum` in `runOnce` after `sum.store(0)` and after
the consumers with the given `localSum`s have returned. -/
def runOnceSum (localSums : List Int) : Int := localSums.foldl fetch_add 0

/-- A signed 64-bit result: leaving the range is a signed overflow. -/
def chk64 (x : Int) : Except Fault Int :=
  if INT64_MIN ≤ x ∧ x ≤ INT64_MAX then .ok x else .error Fault.signedOverflow

/-- The value printed as "Expected sum" by `runOnce`,
`(expectedValue * (expectedValue + 1) * nc) / 2`. -/
def printedExpectedSum (expectedValue nc : Int) : Except Fault Int :=
  match chk64 (expectedValue + 1) with
  | .error e => .error e
  | .ok a =>
    match chk64 (expectedValue * a) with
    | .error e => .error e
    | .ok b =>
      match chk64 (b * nc) with
      | .error e => .error e
      | .ok c => .ok (Int.tdiv c 2)

/-- The globals of the example. -/
structure Globals where
  RING_BUFFER_SIZE : Nat
  counter : Nat
  delta : Nat
  np : Int
  nc : Int
  expectedValue : Int
  deriving DecidableEq, Repr

/-- The value given to `expectedValue` by `main`,
`(RING_BUFFER_SIZE * delta * counter * num_prod.Get()) - 1`: a `size_t`
expression converted to `int64_t`. -/
def expectedValueOf (RING_BUFFER_SIZE delta counter : Nat) (num_prod : Int) : Int :=
  s64 (sub64 (mul64 (mul64 (mul64 RING_BUFFER_SIZE delta) counter) (u64 num_prod)) 1)

/-- The function `main` up to the calls of `runOnce` (four of them, one for
each wait strategy, when `multi` is `0`, `1` or `2`): the globals as these calls
find them, or the exit code when `main` returns before.  The global `np` keeps
its initial value `1` when `multi` is `0`. -/
def main (num_prod num_cons : Int) (batch_size looper ring_buffer_size : Nat) (multi : Int) :
    Except Nat Globals :=
  if batch_size > ring_buffer_size then .error 1
  else
    .ok { RING_BUFFER_SIZE := ring_buffer_size, counter := looper, delta := batch_size,
          np := if multi = 0 then 1 else num_prod, nc := num_cons,
          expectedValue := expectedValueOf ring_buffer_size batch_size looper num_prod }

/-! ## Auxiliary definitions for the proofs -/

/-- The sequences `i, i + 1, ..., i + n - 1`. -/
def seqFrom (i : Int) : Nat → List Int
  | 0 => []
  | n + 1 => i :: seqFrom (i + 1) n

/-- The reads `i, i + 1, ..., i + n - 1` as trace events. -/
def readEvents (i : Int) : Nat → List Event
  | 0 => []
  | n + 1 => Event.read i :: readEvents (i + 1) n

/-- Sum of the slot values at `i, i + 1, ..., i + n - 1`. -/
def slotSum (slot : Int → Int) (i : Int) : Nat → Int
  | 0 => 0
  | n + 1 => slot i + slotSum slot (i + 1) n

/-- Trace of a pass that reads the batch `next_seq .. h`. -/
def batchTrace (c : Consumer) (w h : Int) : List Event :=
  c.trace ++ [Event.waitFor c.next_seq, Event.highestPublished c.next_seq w] ++
    readEvents c.next_seq (h + 1 - c.next_seq).toNat ++ [Event.setSequence h]

/-- The value up to which the reads of a consumer extend (exclusive). -/
def Consumer.bound (E : Int) (c : Consumer) : Int := if c.exited then E + 1 else c.next_seq

/-- What holds of a consumer at the top of every pass of `while (true)` and
after the loop has been left. -/
structure ConsumerInv (E : Int) (slot : Int → Int) (c : Consumer) : Prop where
  next_nonneg : 0 ≤ c.next_seq
  next_le : c.exited = true → c.next_seq ≤ E
  reads : readsOf c.trace = upTo (c.bound E)
  sum : c.localSum = ((readsOf c.trace).map slot).sum
  stores_lt : ∀ v ∈ storesOf c.trace, 0 ≤ v ∧ v < c.bound E
  stores_sorted : (storesOf c.trace).Pairwise (· < ·)
  stores_after_reads : ∀ pre post v,
    c.trace = pre ++ Event.setSequence v :: post → readsOf pre = upTo (v + 1)
  seq_last : c.seq = (storesOf c.trace).getLastD kInitialCursorValue

/-- The sequences `k, k - 1, ..., k - n + 1`. -/
def descFrom (k : Int) : Nat → List Int
  | 0 => []
  | n + 1 => k :: descFrom (k - 1) n

/-- The assignments `s[k] = v` of one pass of the produce loop that has
claimed `sequence`, as pairs `(k, v)` in program order. -/
def batchWrites (delta : Nat) (sequence : Int) : List (Int × Int) :=
  if sequence < delta then (seqFrom 0 (sequence + 1).toNat).map (fun j => (j, j))
  else (descFrom sequence delta).map (fun j => (j, j))

/-- The results of the first `m` calls of `Claim(delta)` on a fresh sequencer:
the last sequences of consecutive batches of `delta`, starting at sequence `0`. -/
def claimsOf (delta : Nat) (m : Nat) : List Int :=
  (List.range m).map (fun (j : Nat) => ((j : Int) + 1) * delta - 1)

/-- The sequencer after `m` passes of the produce loop (by any threads). -/
structure SeqInv (delta : Nat) (m : Nat) (s : Sequencer) : Prop where
  next : s.next = (m : Int) * delta - 1
  cursor : s.cursor = s.next
  claimed : s.claimed = claimsOf delta m
  published : s.published = (claimsOf delta m).map (fun q => (q, delta))
  writes : s.writes = (claimsOf delta m).flatMap (batchWrites delta)

/-- The loop variables of `np` threads after the passes listed in `sched`:
each thread has made as many passes as it was scheduled for, up to `iters`. -/
def loopVars (np : Nat) (iters : Int) (sched : List Nat) : List Int :=
  (List.range np).map (fun (t : Nat) => min iters (sched.count t : Int))

/-- The state of the producer threads after the schedule `sched`. -/
structure RunInv (delta np : Nat) (iters : Int) (sched : List Nat) (p : Producers) : Prop where
  i_eq : p.i = loopVars np iters sched
  count : ∀ t, t < np → (p.callers.count t : Int) = min iters (sched.count t : Int)
  total : (p.callers.length : Int) = p.i.sum
  seqr : SeqInv delta p.callers.length p.seqr

/-! ## The model on small inputs -/

theorem expectedValueOf_scenario : expectedValueOf 1024 8 10 4 = 327679 := by decide

theorem expectedValueOf_zero_batch : expectedValueOf 1024 0 10 4 = -1 := by decide

theorem iterations_scenario : iterations 10 1024 = 10240 := by decide

theorem produce_small_writes : (produce 1 2 3 Sequencer.init).map (fun s => s.writes) =
    .ok [(0, 0), (1, 1), (2, 2), (5, 5), (4, 4), (3, 3)] := by decide

theorem produce_small_publishes : (produce 1 2 3 Sequencer.init).map (fun s => (s.cursor, s.published)) =
    .ok (5, [(2, 3), (5, 3)]) := by decide

theorem runProducers_small : (runProducers 3 2 [0, 1, 1, 0, 5, 1] (Producers.init 2)).map
    (fun p => (p.seqr.claimed, p.i, p.callers, decide (p.finished 2))) =
    .ok ([2, 5, 8, 11], [2, 2], [0, 1, 1, 0], true) := by decide

theorem consume_small_sum :
    (consume 5 (fun k => k) [(-1, 0), (2, 2), (7, 1), (5, 5), (9, 9)]).localSum = 15 := by
  decide

theorem consume_small_reads :
    readsOf (consume 5 (fun k => k) [(-1, 0), (2, 2), (7, 1), (5, 5)]).trace =
      [0, 1, 2, 3, 4, 5] := by
  decide

/-! ## Lemmas on traces -/

theorem readsOf_append (t u : List Event) : readsOf (t ++ u) = readsOf t ++ readsOf u := by
  induction t with
  | nil => rfl
  | cons e es ih => cases e <;> simp [readsOf, ih]

theorem storesOf_append (t u : List Event) : storesOf (t ++ u) = storesOf t ++ storesOf u := by
  induction t with
  | nil => rfl
  | cons e es ih => cases e <;> simp [storesOf, ih]

theorem waitTargets_append (t u : List Event) :
    waitTargets (t ++ u) = waitTargets t ++ waitTargets u := by
  induction t with
  | nil => rfl
  | cons e es ih => cases e <;> simp [waitTargets, ih]

theorem seqFrom_append (i : Int) (m n : Nat) :
    seqFrom i (m + n) = seqFrom i m ++ seqFrom (i + m) n := by
  induction m generalizing i with
  | zero => simp [seqFrom]
  | succ m ih =>
    have h : m + 1 + n = (m + n) + 1 := by omega
    rw [h, seqFrom, seqFrom, ih, List.cons_append]
    congr 3
    push_cast
    ring

theorem seqFrom_eq_map (i : Int) (n : Nat) :
    seqFrom i n = (List.range n).map (fun (k : Nat) => i + (k : Int)) := by
  induction n generalizing i with
  | zero => rfl
  | succ n ih =>
    rw [seqFrom, ih, List.range_succ_eq_map, List.map_cons, List.map_map]
    congr 1
    · simp
    · apply List.map_congr_left
      intro k _
      simp only [Function.comp, Nat.succ_eq_add_one, Nat.cast_add, Nat.cast_one]
      ring

theorem upTo_eq_seqFrom (n : Int) : upTo n = seqFrom 0 n.toNat := by
  rw [seqFrom_eq_map, upTo]
  apply List.map_congr_left
  intro k _
  simp

theorem mem_seqFrom (i : Int) (n : Nat) (k : Int) : k ∈ seqFrom i n ↔ i ≤ k ∧ k < i + n := by
  induction n generalizing i with
  | zero => simp [seqFrom]
  | succ n ih =>
    rw [seqFrom, List.mem_cons, ih]
    push_cast
    omega

theorem readsOf_readEvents (i : Int) (n : Nat) : readsOf (readEvents i n) = seqFrom i n := by
  induction n generalizing i with
  | zero => rfl
  | succ n ih => simp [readEvents, readsOf, seqFrom, ih]

theorem storesOf_readEvents (i : Int) (n : Nat) : storesOf (readEvents i n) = [] := by
  induction n generalizing i with
  | zero => rfl
  | succ n ih => simp [readEvents, storesOf, ih]

theorem waitTargets_readEvents (i : Int) (n : Nat) : waitTargets (readEvents i n) = [] := by
  induction n generalizing i with
  | zero => rfl
  | succ n ih => simp [readEvents, waitTargets, ih]

/-- Closed form of the read loop: with `n` passes left before `i` exceeds
`available_seq`, it reads exactly the `n` slots from `i` on and adds them up. -/
theorem readLoop_eq (slot : Int → Int) (a : Int) (n : Nat) (i : Int) (c : Consumer)
    (h : i + n = a + 1) :
    readLoop slot a n i c =
      { c with localSum := c.localSum + slotSum slot i n, trace := c.trace ++ readEvents i n } := by
  induction n generalizing i c with
  | zero => simp [readLoop, slotSum, readEvents]
  | succ n ih =>
    have hle : i ≤ a := by push_cast at h; omega
    rw [readLoop, if_pos hle, ih (i + 1) _ (by push_cast at h ⊢; omega)]
    simp [slotSum, readEvents, add_assoc]

/-- The fuel handed to the read loop is enough: any larger fuel gives the same
state, the loop having stopped on its own test `i <= available_seq`. -/
theorem readLoop_fuel (slot : Int → Int) (a : Int) (n : Nat) (i : Int) (c : Consumer)
    (h : (a + 1 - i).toNat ≤ n) :
    readLoop slot a n i c = readLoop slot a (a + 1 - i).toNat i c := by
  induction n generalizing i c with
  | zero =>
    have h0 : (a + 1 - i).toNat = 0 := by omega
    rw [h0]
  | succ n ih =>
    by_cases hle : i ≤ a
    · obtain ⟨m, hm⟩ : ∃ m, (a + 1 - i).toNat = m + 1 := ⟨(a - i).toNat, by omega⟩
      rw [hm, readLoop, readLoop, if_pos hle, if_pos hle, ih _ _ (by omega)]
      congr 1
      omega
    · have h0 : (a + 1 - i).toNat = 0 := by omega
      rw [h0]
      simp [readLoop, hle]

theorem slotSum_eq (slot : Int → Int) (i : Int) (n : Nat) :
    slotSum slot i n = ((seqFrom i n).map slot).sum := by
  induction n generalizing i with
  | zero => rfl
  | succ n ih => simp [slotSum, seqFrom, ih]

/-! ## One pass of the consume loop, case by case -/

theorem consumeStep_timeout (E : Int) (slot : Int → Int) (w h : Int) (c : Consumer)
    (hw : w < c.next_seq) :
    consumeStep E slot w h c = { c with trace := c.trace ++ [Event.waitFor c.next_seq] } := by
  simp [consumeStep, hw]

theorem consumeStep_filtered (E : Int) (slot : Int → Int) (w h : Int) (c : Consumer)
    (hw : c.next_seq ≤ w) (hh : h < c.next_seq) :
    consumeStep E slot w h c =
      { c with
        exitCtr := c.exitCtr + 1
        trace := c.trace ++ [Event.waitFor c.next_seq, Event.highestPublished c.next_seq w] ++
          (if c.exitCtr + 1 > 10 then [Event.sleep] else []) } := by
  have hw2 : ¬ w < c.next_seq := not_lt.mpr hw
  by_cases h10 : c.exitCtr + 1 > 10 <;> simp [consumeStep, hw2, hh, h10]

theorem consumeStep_batch (E : Int) (slot : Int → Int) (w h : Int) (c : Consumer)
    (hw : c.next_seq ≤ w) (hh : c.next_seq ≤ h) :
    consumeStep E slot w h c =
      if h = E then
        { c with
          localSum := c.localSum + slotSum slot c.next_seq (h + 1 - c.next_seq).toNat
          seq := h, exited := true, trace := batchTrace c w h }
      else
        { c with
          localSum := c.localSum + slotSum slot c.next_seq (h + 1 - c.next_seq).toNat
          seq := h, next_seq := h + 1, exitCtr := 0, trace := batchTrace c w h } := by
  have hw2 : ¬ w < c.next_seq := not_lt.mpr hw
  have hh2 : ¬ h < c.next_seq := not_lt.mpr hh
  have hn : c.next_seq + ((h + 1 - c.next_seq).toNat : Int) = h + 1 := by omega
  simp only [consumeStep, hw2, hh2, if_false]
  rw [readLoop_eq slot h _ _ _ hn]
  by_cases hE : h = E <;> simp [hE, batchTrace]

/-! ## The invariant of the consume loop -/

theorem not_store_mem_readEvents (i : Int) (n : Nat) (v : Int) :
    Event.setSequence v ∉ readEvents i n := by
  induction n generalizing i with
  | zero => simp [readEvents]
  | succ n ih => simp [readEvents, ih]

/-- A store found in `t ++ u`, where `u` holds no store, lies in `t`. -/
theorem split_store_append (t u pre post : List Event) (v : Int)
    (hu : ∀ x, Event.setSequence x ∉ u) (h : t ++ u = pre ++ Event.setSequence v :: post) :
    ∃ post', t = pre ++ Event.setSequence v :: post' := by
  rcases List.append_eq_append_iff.mp h with ⟨a, _, h2⟩ | ⟨b, h1, h2⟩
  · exact absurd (h2 ▸ List.mem_append_right a (List.mem_cons_self _ _)) (hu v)
  · cases b with
    | nil =>
      simp only [List.nil_append] at h2
      exact absurd (h2 ▸ List.mem_cons_self _ _) (hu v)
    | cons x b =>
      simp only [List.cons_append, List.cons.injEq] at h2
      exact ⟨b, by rw [h1, ← h2.1]⟩

/-- A store found in `t ++ [setSequence a]` is the last event or lies in `t`. -/
theorem split_store_concat (t pre post : List Event) (a v : Int)
    (h : t ++ [Event.setSequence a] = pre ++ Event.setSequence v :: post) :
    (∃ post', t = pre ++ Event.setSequence v :: post') ∨ (pre = t ∧ v = a) := by
  rcases List.eq_nil_or_concat post with hp | ⟨L, b, hp⟩
  · subst hp
    have h2 := List.append_inj' h rfl
    simp only [List.cons.injEq, Event.setSequence.injEq, and_true] at h2
    exact Or.inr ⟨h2.1.symm, h2.2.symm⟩
  · subst hp
    rw [List.concat_eq_append, ← List.cons_append, ← List.append_assoc] at h
    exact Or.inl ⟨L, (List.append_inj' h rfl).1⟩

theorem consumerInv_init (E : Int) (slot : Int → Int) : ConsumerInv E slot Consumer.init where
  next_nonneg := by simp [Consumer.init, kFirstSequenceValue]
  next_le := by simp [Consumer.init]
  reads := by simp [Consumer.init, Consumer.bound, kFirstSequenceValue, upTo, readsOf]
  sum := by simp [Consumer.init, readsOf]
  stores_lt := by simp [Consumer.init, storesOf]
  stores_sorted := by simp [Consumer.init, storesOf]
  stores_after_reads := by simp [Consumer.init]
  seq_last := by simp [Consumer.init, storesOf]

theorem upTo_append_seqFrom (a b : Int) (ha : 0 ≤ a) (hb : a ≤ b + 1) :
    upTo a ++ seqFrom a (b + 1 - a).toNat = upTo (b + 1) := by
  rw [upTo_eq_seqFrom, upTo_eq_seqFrom]
  have h1 : (b + 1).toNat = a.toNat + (b + 1 - a).toNat := by omega
  have h2 : (0 : Int) + (a.toNat : Int) = a := by omega
  rw [h1, seqFrom_append, h2]

theorem consumerInv_step (E : Int) (slot : Int → Int) (w h : Int) (c : Consumer)
    (hne : c.exited = false) (inv : ConsumerInv E slot c) :
    ConsumerInv E slot (consumeStep E slot w h c) := by
  have hb : c.bound E = c.next_seq := by simp [Consumer.bound, hne]
  by_cases hw : w < c.next_seq
  · rw [consumeStep_timeout E slot w h c hw]
    refine ⟨inv.next_nonneg, by simp [hne], ?_, ?_, ?_, ?_, ?_, ?_⟩
    · simpa [readsOf_append, readsOf, Consumer.bound] using inv.reads
    · simpa [readsOf_append, readsOf] using inv.sum
    · simpa [storesOf_append, storesOf, Consumer.bound] using inv.stores_lt
    · simpa [storesOf_append, storesOf] using inv.stores_sorted
    · intro pre post v hsplit
      obtain ⟨post', hp⟩ := split_store_append _ _ _ _ _ (by simp) hsplit
      exact inv.stores_after_reads pre post' v hp
    · simpa [storesOf_append, storesOf] using inv.seq_last
  · have hw2 : c.next_seq ≤ w := not_lt.mp hw
    by_cases hh : h < c.next_seq
    · rw [consumeStep_filtered E slot w h c hw2 hh]
      refine ⟨inv.next_nonneg, by simp [hne], ?_, ?_, ?_, ?_, ?_, ?_⟩
      · by_cases h10 : c.exitCtr + 1 > 10 <;>
          simpa [readsOf_append, readsOf, Consumer.bound, h10] using inv.reads
      · by_cases h10 : c.exitCtr + 1 > 10 <;>
          simpa [readsOf_append, readsOf, h10] using inv.sum
      · by_cases h10 : c.exitCtr + 1 > 10 <;>
          simpa [storesOf_append, storesOf, Consumer.bound, h10] using inv.stores_lt
      · by_cases h10 : c.exitCtr + 1 > 10 <;>
          simpa [storesOf_append, storesOf, h10] using inv.stores_sorted
      · intro pre post v hsplit
        rw [List.append_assoc] at hsplit
        obtain ⟨post', hp⟩ := split_store_append _ _ _ _ _
          (by by_cases h10 : c.exitCtr + 1 > 10 <;> simp [h10]) hsplit
        exact inv.stores_after_reads pre post' v hp
      · by_cases h10 : c.exitCtr + 1 > 10 <;>
          simpa [storesOf_append, storesOf, h10] using inv.seq_last
    · have hh2 : c.next_seq ≤ h := not_lt.mp hh
      have hreads : readsOf (batchTrace c w h) = upTo (h + 1) := by
        rw [batchTrace, readsOf_append, readsOf_append, readsOf_append, readsOf_readEvents,
          inv.reads, hb]
        simp only [readsOf, List.append_nil]
        exact upTo_append_seqFrom _ _ inv.next_nonneg (by omega)
      have hstores : storesOf (batchTrace c w h) = storesOf c.trace ++ [h] := by
        rw [batchTrace, storesOf_append, storesOf_append, storesOf_append, storesOf_readEvents]
        simp [storesOf]
      have hsum : c.localSum + slotSum slot c.next_seq (h + 1 - c.next_seq).toNat =
          ((readsOf (batchTrace c w h)).map slot).sum := by
        rw [batchTrace, readsOf_append, readsOf_append, readsOf_append, readsOf_readEvents,
          slotSum_eq, inv.sum]
        simp [readsOf]
      have hsorted : (storesOf (batchTrace c w h)).Pairwise (· < ·) := by
        rw [hstores, List.pairwise_append]
        refine ⟨inv.stores_sorted, List.pairwise_singleton _ _, ?_⟩
        intro a ha b hb'
        have := (inv.stores_lt a ha).2
        simp only [List.mem_singleton] at hb'
        rw [hb] at this
        omega
      have hsnap : ∀ pre post v,
          batchTrace c w h = pre ++ Event.setSequence v :: post → readsOf pre = upTo (v + 1) := by
        intro pre post v hsplit
        rcases split_store_concat _ _ _ _ _ hsplit with ⟨post', hp⟩ | ⟨hpre, hv⟩
        · rw [List.append_assoc] at hp
          obtain ⟨post'', hp'⟩ := split_store_append _ _ _ _ _
            (by
              intro x hx
              simp only [List.mem_append, List.mem_cons, List.mem_singleton, List.not_mem_nil,
                or_false] at hx
              rcases hx with (hx | hx) | hx
              · cases hx
              · cases hx
              · exact not_store_mem_readEvents _ _ _ hx) hp
          exact inv.stores_after_reads pre post'' v hp'
        · rw [hpre, hv]
          have := hreads
          rw [batchTrace, readsOf_append] at this
          simpa [readsOf] using this
      have hlast : h = (storesOf (batchTrace c w h)).getLastD kInitialCursorValue := by
        rw [hstores, List.getLastD_concat]
      have hlt : ∀ v ∈ storesOf (batchTrace c w h), 0 ≤ v ∧ v < h + 1 := by
        intro v hv
        rw [hstores, List.mem_append, List.mem_singleton] at hv
        rcases hv with hv | hv
        · have := inv.stores_lt v hv
          rw [hb] at this
          omega
        · have := inv.next_nonneg
          omega
      rw [consumeStep_batch E slot w h c hw2 hh2]
      by_cases hE : h = E
      · rw [if_pos hE]
        subst hE
        exact ⟨inv.next_nonneg, fun _ => hh2, by simpa [Consumer.bound] using hreads, hsum,
          by simpa [Consumer.bound] using hlt, hsorted, hsnap, hlast⟩
      · rw [if_neg hE]
        exact ⟨by have := inv.next_nonneg; simp only []; omega, by simp [hne],
          by simpa [Consumer.bound, hne] using hreads, hsum,
          by simpa [Consumer.bound, hne] using hlt, hsorted, hsnap, hlast⟩

theorem consumerInv_loop (E : Int) (slot : Int → Int) (results : List (Int × Int)) (c : Consumer)
    (inv : ConsumerInv E slot c) : ConsumerInv E slot (consumeLoop E slot results c) := by
  induction results generalizing c with
  | nil => exact inv
  | cons r rest ih =>
    obtain ⟨w, h⟩ := r
    rw [consumeLoop]
    by_cases hex : c.exited = true
    · rw [if_pos hex]; exact inv
    · rw [if_neg hex]
      exact ih _ (consumerInv_step E slot w h c (by simpa using hex) inv)

theorem consumerInv_consume (E : Int) (slot : Int → Int) (results : List (Int × Int)) :
    ConsumerInv E slot (consume E slot results) :=
  consumerInv_loop E slot results _ (consumerInv_init E slot)

theorem upTo_pairwise (n : Int) : (upTo n).Pairwise (· < ·) := by
  rw [upTo, List.pairwise_map]
  exact (List.pairwise_lt_range _).imp (fun h => by exact_mod_cast h)

theorem mem_upTo (n k : Int) : k ∈ upTo n ↔ 0 ≤ k ∧ k < n := by
  rw [upTo_eq_seqFrom, mem_seqFrom]
  omega

theorem waitTargets_consumeStep (E : Int) (slot : Int → Int) (w h : Int) (c : Consumer) :
    waitTargets (consumeStep E slot w h c).trace = waitTargets c.trace ++ [c.next_seq] := by
  by_cases hw : w < c.next_seq
  · rw [consumeStep_timeout E slot w h c hw]
    simp [waitTargets_append, waitTargets]
  · have hw2 : c.next_seq ≤ w := not_lt.mp hw
    by_cases hh : h < c.next_seq
    · rw [consumeStep_filtered E slot w h c hw2 hh]
      by_cases h10 : c.exitCtr + 1 > 10 <;> simp [waitTargets_append, waitTargets, h10]
    · rw [consumeStep_batch E slot w h c hw2 (not_lt.mp hh)]
      by_cases hE : h = E <;>
        simp [hE, batchTrace, waitTargets_append, waitTargets, waitTargets_readEvents]

/-- Once `next_seq` is beyond `expectedValue` the loop is never left. -/
theorem consumeLoop_stuck (E : Int) (slot : Int → Int) (results : List (Int × Int))
    (c : Consumer) (hne : c.exited = false) (hgt : E < c.next_seq) :
    (consumeLoop E slot results c).exited = false ∧ E < (consumeLoop E slot results c).next_seq := by
  induction results generalizing c with
  | nil => exact ⟨hne, hgt⟩
  | cons r rest ih =>
    obtain ⟨w, h⟩ := r
    rw [consumeLoop, hne]
    simp only [Bool.false_eq_true, if_false]
    by_cases hw : w < c.next_seq
    · rw [consumeStep_timeout E slot w h c hw]
      exact ih _ hne hgt
    · have hw2 : c.next_seq ≤ w := not_lt.mp hw
      by_cases hh : h < c.next_seq
      · rw [consumeStep_filtered E slot w h c hw2 hh]
        exact ih _ hne hgt
      · have hh2 : c.next_seq ≤ h := not_lt.mp hh
        have hE : h ≠ E := by omega
        rw [consumeStep_batch E slot w h c hw2 hh2, if_neg hE]
        exact ih _ hne (by simp only []; omega)

/-- The pass in which `WaitFor` and `GetHighestPublishedSequence` both
return `expectedValue` leaves the loop. -/
theorem consume_exits (E : Int) (slot : Int → Int) (hE : 0 ≤ E) :
    (consume E slot [(E, E)]).exited = true := by
  have h0 : Consumer.init.next_seq ≤ E := by simpa [Consumer.init, kFirstSequenceValue] using hE
  have h1 : (consumeStep E slot E E Consumer.init).exited = true := by
    rw [consumeStep_batch E slot E E _ h0 h0]
    simp
  have h2 : Consumer.init.exited = false := rfl
  rw [consume, consumeLoop, h2]
  simpa [consumeLoop] using h1

theorem sum_upTo (n : Int) (hn : 0 ≤ n) : (upTo n).sum * 2 = n * (n - 1) := by
  obtain ⟨m, rfl⟩ := Int.eq_ofNat_of_zero_le hn
  clear hn
  rw [upTo]
  simp only [Int.toNat_ofNat]
  induction m with
  | zero => simp
  | succ m ih =>
    rw [List.range_succ, List.map_append, List.sum_append, add_mul, ih]
    simp only [List.map_cons, List.map_nil, List.sum_cons, List.sum_nil]
    push_cast
    ring

/-- A consumer that has left the loop has added up the slots `0 .. E`; when
slot `k` holds `k` this is `E * (E + 1) / 2`. -/
theorem localSum_of_exited (E : Int) (slot : Int → Int) (hslot : ∀ k, slot k = k)
    (results : List (Int × Int)) (hex : (consume E slot results).exited = true) :
    0 ≤ E ∧ (consume E slot results).localSum * 2 = E * (E + 1) ∧
      (consume E slot results).localSum = E * (E + 1) / 2 := by
  have inv := consumerInv_consume E slot results
  have hE : 0 ≤ E := le_trans inv.next_nonneg (inv.next_le hex)
  have hid : slot = id := funext hslot
  have h2 : (consume E slot results).localSum * 2 = E * (E + 1) := by
    have hb : (consume E slot results).bound E = E + 1 := by simp [Consumer.bound, hex]
    rw [inv.sum, inv.reads, hb, hid, List.map_id, sum_upTo _ (by omega)]
    ring
  refine ⟨hE, h2, ?_⟩
  omega

/-! ## Machine arithmetic in range -/

theorem u64_of_nonneg (x : Int) (h0 : 0 ≤ x) (h1 : x < 2 ^ 64) : (u64 x : Int) = x := by
  unfold u64
  omega

theorem sub64_of_le (a b : Nat) (hb : b ≤ a) (ha : a < 2 ^ 64) : sub64 a b = a - b := by
  unfold sub64
  omega

theorem s64_of_lt (x : Nat) (h : x < 2 ^ 63) : s64 x = x := by
  unfold s64
  have h1 : x % 2 ^ 64 = x := Nat.mod_eq_of_lt (by omega)
  rw [h1, if_pos h]

theorem s32_of_lt (x : Nat) (h : x < 2 ^ 31) : s32 x = x := by
  unfold s32
  have h1 : x % 2 ^ 32 = x := Nat.mod_eq_of_lt (by omega)
  rw [h1, if_pos h]

theorem s64_u64 (x : Int) (h0 : INT64_MIN ≤ x) (h1 : x ≤ INT64_MAX) : s64 (u64 x) = x := by
  unfold s64 u64
  unfold INT64_MIN at h0
  unfold INT64_MAX at h1
  split <;> omega

/-! ## One pass of the produce loop -/

theorem mem_descFrom (k : Int) (n : Nat) (j : Int) : j ∈ descFrom k n ↔ k - n < j ∧ j ≤ k := by
  induction n generalizing k with
  | zero => simp [descFrom]
  | succ n ih =>
    rw [descFrom, List.mem_cons, ih]
    push_cast
    omega

/-- The first-batch loop run to its end: it assigns `s[j] = j` for
`j = k, ..., sequence` in ascending order, provided `sequence < INT_MAX`. -/
theorem firstBatchLoop_ok (sequence : Int) (fuel : Nat) (k : Int) (s : Sequencer)
    (hseq : sequence < INT_MAX) (hk : k ≤ sequence + 1)
    (hfuel : (sequence + 1 - k).toNat + 1 ≤ fuel) :
    firstBatchLoop sequence fuel k s =
      .ok { s with writes := s.writes ++ (seqFrom k (sequence + 1 - k).toNat).map (fun j => (j, j)) } := by
  induction fuel generalizing k s with
  | zero => omega
  | succ fuel ih =>
    rw [firstBatchLoop]
    by_cases hle : k ≤ sequence
    · have h1 : k + 1 ≤ INT_MAX := by omega
      obtain ⟨m, hm⟩ : ∃ m, (sequence + 1 - k).toNat = m + 1 := ⟨(sequence - k).toNat, by omega⟩
      have hm2 : (sequence + 1 - (k + 1)).toNat = m := by omega
      rw [if_pos hle, if_pos h1, ih (k + 1) _ (by omega) (by omega), hm, hm2]
      simp [Sequencer.write, seqFrom]
    · have h0 : (sequence + 1 - k).toNat = 0 := by omega
      rw [if_neg hle, h0]
      simp [seqFrom]

/-- The batch loop run to its end from `k`: it assigns `s[j] = j` for
`j = k, k - 1, ..., sequence - delta + 1` in descending order. -/
theorem batchLoop_ok (sequence : Int) (delta fuel : Nat) (k : Int) (s : Sequencer)
    (hdelta : (delta : Int) ≤ sequence) (hseq : sequence ≤ INT64_MAX)
    (hk1 : sequence - delta ≤ k) (hk2 : k ≤ sequence)
    (hfuel : (k - (sequence - delta)).toNat + 1 ≤ fuel) :
    batchLoop sequence delta fuel k s =
      .ok { s with
        writes := s.writes ++ (descFrom k (k - (sequence - delta)).toNat).map (fun j => (j, j)) } := by
  unfold INT64_MAX at hseq
  have hus : (u64 sequence : Int) = sequence := u64_of_nonneg _ (by omega) (by omega)
  have hsub : (sub64 (u64 sequence) delta : Int) = sequence - delta := by
    rw [sub64_of_le _ _ (by omega) (by omega)]
    omega
  induction fuel generalizing k s with
  | zero => omega
  | succ fuel ih =>
    have huk : (u64 k : Int) = k := u64_of_nonneg _ (by omega) (by omega)
    rw [batchLoop]
    by_cases hgt : u64 k > sub64 (u64 sequence) delta
    · have hmin : INT64_MIN ≤ k - 1 := by unfold INT64_MIN; omega
      obtain ⟨m, hm⟩ : ∃ m, (k - (sequence - delta)).toNat = m + 1 :=
        ⟨(k - 1 - (sequence - delta)).toNat, by omega⟩
      have hm2 : (k - 1 - (sequence - delta)).toNat = m := by omega
      rw [if_pos hgt, if_pos hmin, ih (k - 1) _ (by omega) (by omega) (by omega), hm, hm2]
      simp [Sequencer.write, descFrom]
    · have h0 : (k - (sequence - delta)).toNat = 0 := by omega
      rw [if_neg hgt, h0]
      simp [descFrom]

theorem mem_batchWrites (delta : Nat) (sequence k v : Int) (hd : 1 ≤ delta)
    (hge : (delta : Int) - 1 ≤ sequence) :
    (k, v) ∈ batchWrites delta sequence ↔ v = k ∧ sequence - delta + 1 ≤ k ∧ k ≤ sequence := by
  unfold batchWrites
  split
  · simp only [List.mem_map, Prod.mk.injEq, mem_seqFrom]
    constructor
    · rintro ⟨j, hj, rfl, rfl⟩
      omega
    · rintro ⟨hv, h1, h2⟩
      exact ⟨k, by omega, rfl, hv.symm⟩
  · simp only [List.mem_map, Prod.mk.injEq, mem_descFrom]
    constructor
    · rintro ⟨j, hj, rfl, rfl⟩
      omega
    · rintro ⟨hv, h1, h2⟩
      exact ⟨k, by omega, rfl, hv.symm⟩

/-- The body of the produce loop run to its end. -/
theorem produceBody_ok (delta : Nat) (sequence : Int) (s : Sequencer)
    (h0 : 0 ≤ sequence) (hmax : sequence ≤ INT64_MAX)
    (hfirst : sequence < delta → sequence < INT_MAX) :
    produceBody delta sequence s =
      .ok (Sequencer.Publish { s with writes := s.writes ++ batchWrites delta sequence }
        sequence delta) := by
  have hmax2 := hmax
  unfold INT64_MAX at hmax2
  have hus : (u64 sequence : Int) = sequence := u64_of_nonneg _ h0 (by omega)
  unfold produceBody batchWrites
  by_cases hlt : sequence < delta
  · have hlt2 : u64 sequence < delta := by omega
    rw [if_pos hlt2, if_pos hlt, firstBatchLoop_ok sequence _ 0 s (hfirst hlt) (by omega) (by omega)]
    simp [Except.map]
  · have hlt2 : ¬ u64 sequence < delta := by omega
    have hn : (sequence - (sequence - (delta : Int))).toNat = delta := by omega
    rw [if_neg hlt2, if_neg hlt,
      batchLoop_ok sequence delta _ sequence s (by omega) hmax (by omega) le_rfl (by omega), hn]
    simp [Except.map]

/-- One pass of the produce loop run to its end, on a sequencer whose claim
counter is at least its initial value. -/
theorem produceIteration_ok (delta : Nat) (s : Sequencer) (hd : 1 ≤ delta)
    (hdmax : (delta : Int) ≤ INT_MAX) (hn : -1 ≤ s.next) (hmax : s.next + delta ≤ INT64_MAX) :
    produceIteration delta s =
      .ok { next := s.next + delta
            cursor := max s.cursor (s.next + delta)
            claimed := s.claimed ++ [s.next + delta]
            writes := s.writes ++ batchWrites delta (s.next + delta)
            published := s.published ++ [(s.next + delta, delta)] } := by
  unfold produceIteration
  simp only [Sequencer.Claim]
  rw [produceBody_ok delta _ _ (by omega) hmax (by intro h; omega)]
  simp [Sequencer.Publish]

/-! ## Runs of the produce loop -/

theorem seqInv_init (delta : Nat) : SeqInv delta 0 Sequencer.init where
  next := by simp [Sequencer.init, kInitialCursorValue]
  cursor := rfl
  claimed := rfl
  published := rfl
  writes := rfl

theorem claimsOf_succ (delta m : Nat) :
    claimsOf delta (m + 1) = claimsOf delta m ++ [((m : Int) + 1) * delta - 1] := by
  simp [claimsOf, List.range_succ]

theorem claimsOf_length (delta m : Nat) : (claimsOf delta m).length = m := by
  simp [claimsOf]

theorem mem_claimsOf_le (delta m : Nat) (q : Int) (hq : q ∈ claimsOf delta m) :
    q ≤ (m : Int) * delta - 1 := by
  simp only [claimsOf, List.mem_map, List.mem_range] at hq
  obtain ⟨j, hj, rfl⟩ := hq
  have h1 : ((j : Int) + 1) * delta ≤ (m : Int) * delta :=
    mul_le_mul_of_nonneg_right (by omega) (by omega)
  omega

theorem seqInv_iteration (delta m : Nat) (s : Sequencer) (inv : SeqInv delta m s)
    (hd : 1 ≤ delta) (hdmax : (delta : Int) ≤ INT_MAX)
    (hmax : ((m : Int) + 1) * delta - 1 ≤ INT64_MAX) :
    ∃ s1, produceIteration delta s = .ok s1 ∧ SeqInv delta (m + 1) s1 := by
  have hnext : s.next + delta = ((m : Int) + 1) * delta - 1 := by rw [inv.next]; ring
  have hm : 0 ≤ (m : Int) * delta := by positivity
  have hn : -1 ≤ s.next := by rw [inv.next]; omega
  refine ⟨_, produceIteration_ok delta s hd hdmax hn (by rw [hnext]; exact hmax), ?_⟩
  refine ⟨by simp only [hnext]; push_cast; ring, ?_, ?_, ?_, ?_⟩
  · simp only [inv.cursor]
    exact max_eq_right (by omega)
  · simp only [inv.claimed, claimsOf_succ, hnext]
  · simp only [inv.published, claimsOf_succ, hnext, List.map_append, List.map_cons, List.map_nil]
  · simp only [inv.writes, claimsOf_succ, hnext, List.flatMap_append, List.flatMap_cons,
      List.flatMap_nil, List.append_nil]

/-- The loop of `produce` run to its end: with `n` passes left it makes `n`
further claims. -/
theorem produceLoop_ok (delta : Nat) (iters : Int) (fuel : Nat) (i : Int) (m : Nat)
    (s : Sequencer) (inv : SeqInv delta m s) (hd : 1 ≤ delta) (hdmax : (delta : Int) ≤ INT_MAX)
    (hmax : ((m : Int) + (iters - i).toNat) * delta - 1 ≤ INT64_MAX)
    (hfuel : (iters - i).toNat + 1 ≤ fuel) :
    ∃ s1, produceLoop delta iters fuel i s = .ok s1 ∧ SeqInv delta (m + (iters - i).toNat) s1 := by
  induction fuel generalizing i m s with
  | zero => omega
  | succ fuel ih =>
    rw [produceLoop]
    by_cases hlt : i < iters
    · obtain ⟨n, hn⟩ : ∃ n, (iters - i).toNat = n + 1 := ⟨(iters - i - 1).toNat, by omega⟩
      have hn2 : (iters - (i + 1)).toNat = n := by omega
      rw [hn] at hmax
      have hle : ((m : Int) + 1) * delta - 1 ≤ ((m : Int) + ((n + 1 : Nat) : Int)) * delta - 1 := by
        have : ((m : Int) + 1) * delta ≤ ((m : Int) + ((n + 1 : Nat) : Int)) * delta :=
          mul_le_mul_of_nonneg_right (by push_cast; omega) (by omega)
        omega
      obtain ⟨s1, h1, inv1⟩ := seqInv_iteration delta m s inv hd hdmax (le_trans hle hmax)
      have hmax1 : (((m + 1 : Nat) : Int) + (iters - (i + 1)).toNat) * delta - 1 ≤ INT64_MAX := by
        rw [hn2]
        have : ((m + 1 : Nat) : Int) + (n : Int) = (m : Int) + ((n + 1 : Nat) : Int) := by
          push_cast; ring
        rw [this]
        exact hmax
      obtain ⟨s2, h2, inv2⟩ := ih (i + 1) (m + 1) s1 inv1 hmax1 (by omega)
      refine ⟨s2, ?_, ?_⟩
      · rw [if_pos hlt, h1]
        exact h2
      · rw [hn]
        rw [hn2] at inv2
        have : m + 1 + n = m + (n + 1) := by omega
        rw [← this]
        exact inv2
    · have h0 : (iters - i).toNat = 0 := by omega
      refine ⟨s, by rw [if_neg hlt], ?_⟩
      rw [h0]
      exact inv

/-! ## Interleaved producer threads -/

theorem runProducers_concat (delta : Nat) (iters : Int) (sched : List Nat) (t : Nat)
    (p p1 : Producers) (h : runProducers delta iters sched p = .ok p1) :
    runProducers delta iters (sched ++ [t]) p = producerStep delta iters t p1 := by
  induction sched generalizing p with
  | nil =>
    simp only [runProducers, Except.ok.injEq] at h
    subst h
    simp only [List.nil_append, runProducers]
    cases producerStep delta iters t p <;> rfl
  | cons a rest ih =>
    simp only [List.cons_append, runProducers] at h ⊢
    cases hstep : producerStep delta iters a p with
    | error e => rw [hstep] at h; cases h
    | ok p2 =>
      rw [hstep] at h
      exact ih p2 h

/-- A single thread scheduled `n` times, with `n` at least the number of its
remaining passes, does what the loop of `produce` does. -/
theorem runProducers_single (delta : Nat) (iters : Int) (n : Nat) (i : Int) (s : Sequencer)
    (cs : List Nat) (hn : (iters - i).toNat ≤ n) :
    (runProducers delta iters (List.replicate n 0) { seqr := s, i := [i], callers := cs }).map
        (fun p => p.seqr) =
      produceLoop delta iters (n + 1) i s := by
  induction n generalizing i s cs with
  | zero =>
    have hge : ¬ i < iters := by omega
    simp [runProducers, produceLoop, hge, Except.map]
  | succ n ih =>
    rw [List.replicate_succ, runProducers, produceLoop]
    by_cases hlt : i < iters
    · simp only [producerStep, List.getElem?_cons_zero, hlt, if_true]
      cases hiter : produceIteration delta s with
      | error e => simp [Except.map]
      | ok s1 =>
        simp only [Except.map, List.set_cons_zero]
        exact ih (i + 1) s1 (cs ++ [0]) (by omega)
    · simp only [producerStep, List.getElem?_cons_zero, hlt, if_false]
      rw [ih i s cs (by omega), produceLoop, if_neg hlt]

/-- The function `produce` on a fresh sequencer is the run of one producer
thread. -/
theorem produce_eq_single_thread (counter N delta : Nat) :
    produce counter N delta Sequencer.init =
      (runProducers delta (iterations counter N)
        (List.replicate (iterations counter N).toNat 0) (Producers.init 1)).map
          (fun p => p.seqr) := by
  rw [produce, Producers.init, List.replicate_one,
    runProducers_single delta (iterations counter N) _ 0 Sequencer.init [] (by omega)]

theorem sum_set_of_getElem? (l : List Int) (t : Nat) (x y : Int) (h : l[t]? = some x) :
    (l.set t y).sum = l.sum - x + y := by
  induction l generalizing t with
  | nil => simp at h
  | cons a l ih =>
    cases t with
    | zero =>
      simp only [List.getElem?_cons_zero, Option.some.injEq] at h
      subst h
      simp only [List.set_cons_zero, List.sum_cons]
      ring
    | succ t =>
      simp only [List.getElem?_cons_succ] at h
      simp only [List.set_cons_succ, List.sum_cons, ih t h]
      ring

theorem sum_le_length_mul (l : List Int) (c : Int) (h : ∀ x ∈ l, x ≤ c) :
    l.sum ≤ (l.length : Int) * c := by
  induction l with
  | nil => simp
  | cons a l ih =>
    have h1 := h a (List.mem_cons_self _ _)
    have h2 := ih (fun x hx => h x (List.mem_cons_of_mem _ hx))
    simp only [List.sum_cons, List.length_cons]
    push_cast
    linarith

theorem sum_eq_length_mul (l : List Int) (c : Int) (h : ∀ x ∈ l, x = c) :
    l.sum = (l.length : Int) * c := by
  induction l with
  | nil => simp
  | cons a l ih =>
    have h1 := h a (List.mem_cons_self _ _)
    have h2 := ih (fun x hx => h x (List.mem_cons_of_mem _ hx))
    simp only [List.sum_cons, List.length_cons]
    push_cast
    linarith

theorem runInv_init (delta np : Nat) (iters : Int) (h0 : 0 ≤ iters) :
    RunInv delta np iters [] (Producers.init np) where
  i_eq := by
    simp only [Producers.init, loopVars, List.count_nil, Nat.cast_zero, min_eq_right h0]
    apply List.ext_getElem?
    intro n
    by_cases hn : n < np <;> simp [List.getElem?_replicate, hn]
  count := by simp [Producers.init, h0]
  total := by simp [Producers.init]
  seqr := seqInv_init delta

theorem loopVars_getElem? (np : Nat) (iters : Int) (sched : List Nat) (t : Nat) :
    (loopVars np iters sched)[t]? =
      if t < np then some (min iters (sched.count t : Int)) else none := by
  unfold loopVars
  by_cases ht : t < np
  · simp [ht, List.getElem?_range ht]
  · have hlen : (List.range np).length ≤ t := by simpa using ht
    simp [ht, List.getElem?_eq_none hlen]

theorem loopVars_skip (np : Nat) (iters : Int) (sched : List Nat) (t : Nat)
    (h : np ≤ t ∨ iters ≤ (sched.count t : Int)) :
    loopVars np iters (sched ++ [t]) = loopVars np iters sched := by
  unfold loopVars
  apply List.map_congr_left
  intro a ha
  rw [List.mem_range] at ha
  rw [List.count_append, List.count_singleton]
  by_cases hat : t = a
  · subst hat
    have h2 : iters ≤ (sched.count t : Int) := by omega
    simp only [beq_self_eq_true, if_true]
    push_cast
    rw [min_eq_left h2, min_eq_left (by omega)]
  · simp [hat]

theorem loopVars_pass (np : Nat) (iters : Int) (sched : List Nat) (t : Nat) (ht : t < np)
    (h : (sched.count t : Int) < iters) :
    loopVars np iters (sched ++ [t]) = (loopVars np iters sched).set t ((sched.count t : Int) + 1) := by
  apply List.ext_getElem?
  intro n
  rw [List.getElem?_set, loopVars_getElem?, loopVars_getElem?]
  simp only [loopVars, List.length_map, List.length_range]
  rw [List.count_append, List.count_singleton]
  by_cases hn : t = n
  · subst hn
    simp only [ht, if_true, beq_self_eq_true]
    push_cast
    rw [min_eq_right (by omega)]
  · by_cases hn2 : n < np <;> simp [hn, hn2]

theorem loopVars_le (np : Nat) (iters : Int) (sched : List Nat) :
    ∀ x ∈ loopVars np iters sched, x ≤ iters := by
  intro x hx
  simp only [loopVars, List.mem_map, List.mem_range] at hx
  obtain ⟨t, _, rfl⟩ := hx
  exact min_le_left _ _

theorem loopVars_length (np : Nat) (iters : Int) (sched : List Nat) :
    (loopVars np iters sched).length = np := by
  simp [loopVars]

theorem runInv_step (delta np : Nat) (iters : Int) (sched : List Nat) (t : Nat) (p : Producers)
    (inv : RunInv delta np iters sched p) (hd : 1 ≤ delta)
    (hdmax : 0 < iters → (delta : Int) ≤ INT_MAX)
    (hmax : (np : Int) * iters * delta - 1 ≤ INT64_MAX) :
    ∃ p1, producerStep delta iters t p = .ok p1 ∧ RunInv delta np iters (sched ++ [t]) p1 := by
  unfold producerStep
  rw [inv.i_eq, loopVars_getElem?]
  by_cases ht : t < np
  · rw [if_pos ht]
    simp only []
    by_cases hlt : min iters (sched.count t : Int) < iters
    · have hc : (sched.count t : Int) < iters := by
        rcases min_choice iters (sched.count t : Int) with h | h <;> omega
      have hmin : min iters (sched.count t : Int) = sched.count t := min_eq_right (le_of_lt hc)
      have hi' : loopVars np iters (sched ++ [t]) =
          (loopVars np iters sched).set t (min iters (sched.count t : Int) + 1) := by
        rw [hmin]; exact loopVars_pass np iters sched t ht hc
      have hsum : (loopVars np iters (sched ++ [t])).sum = (p.callers.length : Int) + 1 := by
        rw [hi', sum_set_of_getElem? _ t (min iters (sched.count t : Int)) _
          (by rw [loopVars_getElem?, if_pos ht]), inv.total, inv.i_eq]
        ring
      have hbound : (p.callers.length : Int) + 1 ≤ (np : Int) * iters := by
        rw [← hsum]
        have := sum_le_length_mul _ iters (loopVars_le np iters (sched ++ [t]))
        rwa [loopVars_length] at this
      have hmax1 : ((p.callers.length : Int) + 1) * delta - 1 ≤ INT64_MAX := by
        have : ((p.callers.length : Int) + 1) * delta ≤ (np : Int) * iters * delta :=
          mul_le_mul_of_nonneg_right hbound (by omega)
        omega
      obtain ⟨s1, h1, inv1⟩ :=
        seqInv_iteration delta _ p.seqr inv.seqr hd (hdmax (by omega)) hmax1
      refine ⟨_, by rw [if_pos hlt, h1]; rfl, ?_⟩
      refine ⟨hi'.symm, ?_, ?_, ?_⟩
      · intro t' ht'
        simp only [List.count_append, List.count_singleton]
        have := inv.count t' ht'
        by_cases htt : t = t'
        · subst htt
          simp only [beq_self_eq_true, if_true]
          push_cast
          rw [this, hmin, min_eq_right (by omega)]
        · simp only [beq_iff_eq, htt, if_false, add_zero]
          exact this
      · simp only [List.length_append, List.length_singleton]
        rw [← hi', hsum]
        push_cast
        rfl
      · simpa using inv1
    · have hc : iters ≤ (sched.count t : Int) := by
        rcases min_choice iters (sched.count t : Int) with h | h
        · exact le_of_not_lt (fun hcon => by rw [min_eq_right (le_of_lt hcon)] at hlt; exact hlt hcon)
        · omega
      refine ⟨p, by rw [if_neg hlt], ?_⟩
      refine ⟨by rw [loopVars_skip np iters sched t (Or.inr hc)]; exact inv.i_eq, ?_, inv.total,
        inv.seqr⟩
      intro t' ht'
      rw [inv.count t' ht', List.count_append, List.count_singleton]
      by_cases htt : t = t'
      · subst htt
        simp only [beq_self_eq_true, if_true]
        push_cast
        rw [min_eq_left hc, min_eq_left (by omega)]
      · simp [htt]
  · rw [if_neg ht]
    refine ⟨p, rfl, ?_⟩
    refine ⟨by rw [loopVars_skip np iters sched t (Or.inl (by omega))]; exact inv.i_eq, ?_,
      inv.total, inv.seqr⟩
    intro t' ht'
    rw [inv.count t' ht', List.count_append, List.count_singleton]
    have htt : t ≠ t' := by omega
    simp [htt]

/-- Whatever the schedule, the producer threads run without fault and reach
the state described by `RunInv`. -/
theorem runProducers_ok (delta np : Nat) (iters : Int) (sched : List Nat) (h0 : 0 ≤ iters)
    (hd : 1 ≤ delta) (hdmax : 0 < iters → (delta : Int) ≤ INT_MAX)
    (hmax : (np : Int) * iters * delta - 1 ≤ INT64_MAX) :
    ∃ p, runProducers delta iters sched (Producers.init np) = .ok p ∧
      RunInv delta np iters sched p := by
  induction sched using List.reverseRecOn with
  | nil => exact ⟨_, rfl, runInv_init delta np iters h0⟩
  | append_singleton sched t ih =>
    obtain ⟨p, hp, inv⟩ := ih
    obtain ⟨p1, hp1, inv1⟩ := runInv_step delta np iters sched t p inv hd hdmax hmax
    exact ⟨p1, by rw [runProducers_concat delta iters sched t _ p hp, hp1], inv1⟩

/-- When all threads have left their loop, each has made `iters` claims and
`np * iters` claims have been made in all. -/
theorem runInv_finished (delta np : Nat) (iters : Int) (sched : List Nat) (p : Producers)
    (inv : RunInv delta np iters sched p) (hfin : p.finished iters) :
    (∀ t, t < np → (p.callers.count t : Int) = iters) ∧
      (p.callers.length : Int) = (np : Int) * iters := by
  have hall : ∀ x ∈ p.i, x = iters := by
    intro x hx
    have h1 := hfin x hx
    rw [inv.i_eq] at hx
    have h2 := loopVars_le np iters sched x hx
    omega
  constructor
  · intro t ht
    rw [inv.count t ht]
    have hmem : min iters (sched.count t : Int) ∈ p.i := by
      rw [inv.i_eq]
      exact List.mem_map.mpr ⟨t, List.mem_range.mpr ht, rfl⟩
    exact hall _ hmem
  · rw [inv.total, sum_eq_length_mul p.i iters hall, inv.i_eq, loopVars_length]

/-- A schedule in which every thread comes up at least `iters` times lets all
threads leave their loop. -/
theorem runInv_finished_of_count (delta np : Nat) (iters : Int) (sched : List Nat)
    (p : Producers) (inv : RunInv delta np iters sched p)
    (hfair : ∀ t, t < np → iters ≤ (sched.count t : Int)) : p.finished iters := by
  intro x hx
  rw [inv.i_eq] at hx
  simp only [loopVars, List.mem_map, List.mem_range] at hx
  obtain ⟨t, ht, rfl⟩ := hx
  rw [min_eq_left (hfair t ht)]
  exact lt_irrefl _

/-! ## The claims about `consume` -/

/-- C2: whatever `WaitFor` and `GetHighestPublishedSequence` return, the
consume loop reads the slot sequences in ascending order without gap from `0`,
each once: at the top of every pass the sequences read so far are exactly
`0, ..., next_seq - 1`, and once the loop has been left they are exactly
`0, ..., expectedValue`. -/
theorem consume_reads_gap_free (expectedValue : Int) (slot : Int → Int)
    (results : List (Int × Int)) :
    readsOf (consume expectedValue slot results).trace =
        upTo (if (consume expectedValue slot results).exited then expectedValue + 1
          else (consume expectedValue slot results).next_seq) ∧
      (readsOf (consume expectedValue slot results).trace).Pairwise (· < ·) ∧
      (readsOf (consume expectedValue slot results).trace).Nodup := by
  have inv := consumerInv_consume expectedValue slot results
  have h1 := inv.reads
  unfold Consumer.bound at h1
  refine ⟨h1, ?_, ?_⟩
  · rw [h1]; exact upTo_pairwise _
  · rw [h1]; exact (upTo_pairwise _).imp (fun h => ne_of_lt h)

/-- C6: when `WaitFor` returns a value below the awaited `next_seq`, or
`GetHighestPublishedSequence` does, the pass reads no slot, leaves `next_seq`,
`localSum` and the consumer's gating `Sequence` unchanged, and the `WaitFor`
call of the next pass has the same target `next_seq`. -/
theorem consume_retry_keeps_state (expectedValue : Int) (slot : Int → Int) (w h w' h' : Int)
    (c : Consumer) (hlow : w < c.next_seq ∨ h < c.next_seq) :
    readsOf (consumeStep expectedValue slot w h c).trace = readsOf c.trace ∧
      (consumeStep expectedValue slot w h c).next_seq = c.next_seq ∧
      (consumeStep expectedValue slot w h c).localSum = c.localSum ∧
      (consumeStep expectedValue slot w h c).seq = c.seq ∧
      storesOf (consumeStep expectedValue slot w h c).trace = storesOf c.trace ∧
      (consumeStep expectedValue slot w h c).exited = c.exited ∧
      waitTargets (consumeStep expectedValue slot w h c).trace =
        waitTargets c.trace ++ [c.next_seq] ∧
      waitTargets (consumeStep expectedValue slot w' h'
          (consumeStep expectedValue slot w h c)).trace =
        waitTargets c.trace ++ [c.next_seq, c.next_seq] := by
  have key : readsOf (consumeStep expectedValue slot w h c).trace = readsOf c.trace ∧
      (consumeStep expectedValue slot w h c).next_seq = c.next_seq ∧
      (consumeStep expectedValue slot w h c).localSum = c.localSum ∧
      (consumeStep expectedValue slot w h c).seq = c.seq ∧
      storesOf (consumeStep expectedValue slot w h c).trace = storesOf c.trace ∧
      (consumeStep expectedValue slot w h c).exited = c.exited := by
    by_cases hw : w < c.next_seq
    · rw [consumeStep_timeout expectedValue slot w h c hw]
      simp [readsOf_append, readsOf, storesOf_append, storesOf]
    · have hh : h < c.next_seq := hlow.resolve_left hw
      rw [consumeStep_filtered expectedValue slot w h c (not_lt.mp hw) hh]
      by_cases h10 : c.exitCtr + 1 > 10 <;>
        simp [readsOf_append, readsOf, storesOf_append, storesOf, h10]
  obtain ⟨k1, k2, k3, k4, k5, k6⟩ := key
  refine ⟨k1, k2, k3, k4, k5, k6, waitTargets_consumeStep _ _ _ _ _, ?_⟩
  rw [waitTargets_consumeStep, waitTargets_consumeStep, k2]
  simp

theorem consume_retry_keeps_state_witness :
    ((-1 : Int) < Consumer.init.next_seq ∨ (7 : Int) < Consumer.init.next_seq) ∧
      (consumeStep 5 (fun k => k) (-1) 7 Consumer.init).next_seq = Consumer.init.next_seq ∧
      waitTargets (consumeStep 5 (fun k => k) 3 3
        (consumeStep 5 (fun k => k) (-1) 7 Consumer.init)).trace = [0, 0] :=
  ⟨Or.inl (by decide),
    (consume_retry_keeps_state 5 (fun k => k) (-1) 7 3 3 Consumer.init (Or.inl (by decide))).2.1,
    (consume_retry_keeps_state 5 (fun k => k) (-1) 7 3 3 Consumer.init
      (Or.inl (by decide))).2.2.2.2.2.2.2⟩

/-- C8: the values that the consume loop stores into the consumer's own gating
`Sequence` are non-negative and strictly increasing from one store to the
next, and when a value `v` is stored all slot sequences `0 .. v` have been
read before (exactly these), so that the sequence advances only after the
batch has been read. -/
theorem consume_stores_after_reads (expectedValue : Int) (slot : Int → Int)
    (results : List (Int × Int)) (pre post : List Event) (v : Int)
    (hstore : (consume expectedValue slot results).trace = pre ++ Event.setSequence v :: post) :
    0 ≤ v ∧ (∀ u ∈ storesOf pre, u < v) ∧ readsOf pre = upTo (v + 1) ∧
      (∀ k, 0 ≤ k → k ≤ v → k ∈ readsOf pre) ∧
      (storesOf (consume expectedValue slot results).trace).Pairwise (· < ·) ∧
      (consume expectedValue slot results).seq =
        (storesOf (consume expectedValue slot results).trace).getLastD kInitialCursorValue := by
  have inv := consumerInv_consume expectedValue slot results
  have hst : storesOf (consume expectedValue slot results).trace =
      storesOf pre ++ v :: storesOf post := by
    rw [hstore, storesOf_append]
    simp [storesOf]
  have hsorted := inv.stores_sorted
  have hreads := inv.stores_after_reads pre post v hstore
  refine ⟨?_, ?_, hreads, ?_, hsorted, inv.seq_last⟩
  · exact (inv.stores_lt v (by rw [hst]; simp)).1
  · intro u hu
    rw [hst, List.pairwise_append] at hsorted
    exact hsorted.2.2 u hu v (List.mem_cons_self _ _)
  · intro k hk0 hkv
    rw [hreads, mem_upTo]
    omega

theorem consume_stores_after_reads_witness :
    (consume 5 (fun k => k) [(2, 2), (9, 1), (4, 3)]).trace =
        [Event.waitFor 0, Event.highestPublished 0 2, Event.read 0, Event.read 1, Event.read 2,
          Event.setSequence 2, Event.waitFor 3, Event.highestPublished 3 9, Event.waitFor 3,
          Event.highestPublished 3 4, Event.read 3] ++
        Event.setSequence 3 :: [] ∧
      readsOf [Event.waitFor 0, Event.highestPublished 0 2, Event.read 0, Event.read 1,
          Event.read 2, Event.setSequence 2, Event.waitFor 3, Event.highestPublished 3 9,
          Event.waitFor 3, Event.highestPublished 3 4, Event.read 3] =
        upTo (3 + 1) :=
  ⟨by decide,
    (consume_stores_after_reads 5 (fun k => k) [(2, 2), (9, 1), (4, 3)] _ [] 3 (by decide)).2.2.1⟩

/-- With a loop count, batch size or producer count of `0` the product wraps
to `expectedValue = -1`. -/
theorem expectedValueOf_zero (N delta L : Nat) (P : Int) (h : delta = 0 ∨ L = 0 ∨ P = 0) :
    expectedValueOf N delta L P = -1 := by
  have hprod : mul64 (mul64 (mul64 N delta) L) (u64 P) = 0 := by
    rcases h with h | h | h
    · subst h; simp [mul64]
    · subst h; simp [mul64]
    · subst h; simp [mul64, u64]
  unfold expectedValueOf
  rw [hprod]
  decide

/-- C10: the consume loop is left only in a pass whose filtered
`available_seq` equals `expectedValue`; if `expectedValue` is negative (as when
the loop count, batch size or producer count is `0`, which makes it `-1`), or
once `next_seq` is beyond `expectedValue`, or once a processed `available_seq`
exceeds `expectedValue`, then `next_seq > expectedValue` from there on and the
loop is never left, whatever is returned afterwards. -/
theorem consume_exit_only_at_expectedValue (expectedValue : Int) (slot : Int → Int) (w h : Int)
    (c : Consumer) (results : List (Int × Int)) (hne : c.exited = false) :
    ((consumeStep expectedValue slot w h c).exited = true ↔
        (c.next_seq ≤ w ∧ c.next_seq ≤ h ∧ h = expectedValue)) ∧
      ((expectedValue < c.next_seq ∨ (c.next_seq ≤ w ∧ c.next_seq ≤ h ∧ expectedValue < h)) →
        (consumeLoop expectedValue slot results (consumeStep expectedValue slot w h c)).exited =
            false ∧
          expectedValue <
            (consumeLoop expectedValue slot results
              (consumeStep expectedValue slot w h c)).next_seq) ∧
      (expectedValue < 0 →
        (consume expectedValue slot results).exited = false ∧
          expectedValue < (consume expectedValue slot results).next_seq) ∧
      (∀ (N delta L : Nat) (P : Int), delta = 0 ∨ L = 0 ∨ P = 0 →
        expectedValueOf N delta L P = -1 ∧
        (consume (expectedValueOf N delta L P) slot results).exited = false) := by
  refine ⟨?_, ?_, ?_, ?_⟩
  · by_cases hw : w < c.next_seq
    · rw [consumeStep_timeout expectedValue slot w h c hw]
      simp only [hne, Bool.false_eq_true, false_iff]
      omega
    · have hw2 : c.next_seq ≤ w := not_lt.mp hw
      by_cases hh : h < c.next_seq
      · rw [consumeStep_filtered expectedValue slot w h c hw2 hh]
        simp only [hne, Bool.false_eq_true, false_iff]
        omega
      · have hh2 : c.next_seq ≤ h := not_lt.mp hh
        rw [consumeStep_batch expectedValue slot w h c hw2 hh2]
        by_cases hE : h = expectedValue
        · rw [if_pos hE]
          simp only [true_iff]
          exact ⟨hw2, hh2, hE⟩
        · rw [if_neg hE]
          simp [hne, hE]
  · intro hcase
    apply consumeLoop_stuck
    · by_cases hw : w < c.next_seq
      · rw [consumeStep_timeout expectedValue slot w h c hw]
        exact hne
      · have hw2 : c.next_seq ≤ w := not_lt.mp hw
        by_cases hh : h < c.next_seq
        · rw [consumeStep_filtered expectedValue slot w h c hw2 hh]
          exact hne
        · have hh2 : c.next_seq ≤ h := not_lt.mp hh
          have hE : h ≠ expectedValue := by omega
          rw [consumeStep_batch expectedValue slot w h c hw2 hh2, if_neg hE]
          exact hne
    · by_cases hw : w < c.next_seq
      · rw [consumeStep_timeout expectedValue slot w h c hw]
        simp only []
        omega
      · have hw2 : c.next_seq ≤ w := not_lt.mp hw
        by_cases hh : h < c.next_seq
        · rw [consumeStep_filtered expectedValue slot w h c hw2 hh]
          simp only []
          omega
        · have hh2 : c.next_seq ≤ h := not_lt.mp hh
          have hE : h ≠ expectedValue := by omega
          rw [consumeStep_batch expectedValue slot w h c hw2 hh2, if_neg hE]
          simp only []
          omega
  · intro hneg
    exact consumeLoop_stuck expectedValue slot results Consumer.init rfl
      (by simpa [Consumer.init, kFirstSequenceValue] using hneg)
  · intro N delta L P hz
    have hE := expectedValueOf_zero N delta L P hz
    refine ⟨hE, ?_⟩
    rw [hE]
    exact (consumeLoop_stuck (-1) slot results Consumer.init rfl (by decide)).1

theorem consume_exit_only_at_expectedValue_witness :
    Consumer.init.exited = false ∧ (-1 : Int) < 0 ∧
      ((consumeStep 2 (fun k => k) 2 2 Consumer.init).exited = true ↔
        (Consumer.init.next_seq ≤ 2 ∧ Consumer.init.next_seq ≤ 2 ∧ (2 : Int) = 2)) ∧
      (consumeLoop 2 (fun k => k) [(2, 2), (9, 9)]
        (consumeStep 2 (fun k => k) 3 3 Consumer.init)).exited = false ∧
      (consume (-1) (fun k => k) [(0, 0), (-1, -1), (5, 5)]).exited = false ∧
      expectedValueOf 1024 8 0 4 = -1 :=
  ⟨rfl, by decide,
    (consume_exit_only_at_expectedValue 2 (fun k => k) 2 2 Consumer.init [] rfl).1,
    ((consume_exit_only_at_expectedValue 2 (fun k => k) 3 3 Consumer.init [(2, 2), (9, 9)]
      rfl).2.1 (Or.inr (by decide))).1,
    ((consume_exit_only_at_expectedValue (-1) (fun k => k) 0 0 Consumer.init
      [(0, 0), (-1, -1), (5, 5)] rfl).2.2.1 (by decide)).1,
    ((consume_exit_only_at_expectedValue (-1) (fun k => k) 0 0 Consumer.init
      [] rfl).2.2.2 1024 8 0 4 (Or.inr (Or.inl rfl))).1⟩

/-! ## The sum printed by `runOnce` -/

theorem fetch_add_of_range (sum v : Int) (h0 : INT64_MIN ≤ sum + v) (h1 : sum + v ≤ INT64_MAX) :
    fetch_add sum v = sum + v := s64_u64 _ h0 h1

theorem foldl_fetch_add (l : List Int) (acc T : Int) (hl : ∀ x ∈ l, x = T) (hacc : 0 ≤ acc)
    (hT : 0 ≤ T) (hmax : acc + (l.length : Int) * T ≤ INT64_MAX) :
    l.foldl fetch_add acc = acc + (l.length : Int) * T := by
  induction l generalizing acc with
  | nil => simp
  | cons a l ih =>
    have ha : a = T := hl a (List.mem_cons_self _ _)
    subst ha
    have hlen : (((a :: l).length : Nat) : Int) = (l.length : Int) + 1 := by simp
    rw [hlen] at hmax ⊢
    have hnn : 0 ≤ (l.length : Int) * a := by positivity
    have hstep : fetch_add acc a = acc + a :=
      fetch_add_of_range _ _ (by unfold INT64_MIN; omega) (by linarith)
    rw [List.foldl_cons, hstep,
      ih (acc + a) (fun x hx => hl x (List.mem_cons_of_mem _ hx)) (by omega) (by linarith)]
    ring

theorem printedExpectedSum_ok (E nc : Int) (hE : 0 ≤ E) (hnc : 0 ≤ nc)
    (h1 : E * (E + 1) ≤ INT64_MAX) (h2 : E * (E + 1) * nc ≤ INT64_MAX) :
    printedExpectedSum E nc = .ok (E * (E + 1) * nc / 2) := by
  have hp : 0 ≤ E * (E + 1) := by positivity
  have hp2 : 0 ≤ E * (E + 1) * nc := by positivity
  have hE1 : E + 1 ≤ INT64_MAX := by
    rcases eq_or_lt_of_le hE with h | h
    · rw [← h]; decide
    · nlinarith
  have hmin : INT64_MIN ≤ 0 := by decide
  unfold printedExpectedSum chk64
  rw [if_pos ⟨by omega, hE1⟩]
  simp only []
  rw [if_pos ⟨by omega, h1⟩]
  simp only []
  rw [if_pos ⟨by omega, h2⟩]
  simp only []
  rw [Int.tdiv_eq_ediv hp2 (by decide)]

/-- The sums of `runOnce` when every consumer has left its loop and slot `k`
holds `k`. -/
theorem consumers_sum_core (E : Int) (slot : Int → Int)
    (runs : List (List (Int × Int))) (hE : 0 ≤ E) (hslot : ∀ k, slot k = k)
    (hexit : ∀ r ∈ runs, (consume E slot r).exited = true)
    (hno1 : E * (E + 1) ≤ INT64_MAX) (hno : E * (E + 1) * (runs.length : Int) ≤ INT64_MAX) :
    (∀ r ∈ runs, (consume E slot r).localSum = E * (E + 1) / 2) ∧
      runOnceSum (runs.map (fun r => (consume E slot r).localSum)) =
        (runs.length : Int) * (E * (E + 1) / 2) ∧
      runOnceSum (runs.map (fun r => (consume E slot r).localSum)) =
        E * (E + 1) * (runs.length : Int) / 2 ∧
      printedExpectedSum E (runs.length : Int) = .ok (E * (E + 1) * (runs.length : Int) / 2) := by
  have hlocal : ∀ r ∈ runs, (consume E slot r).localSum = E * (E + 1) / 2 :=
    fun r hr => (localSum_of_exited E slot hslot r (hexit r hr)).2.2
  have hp : 0 ≤ E * (E + 1) := by positivity
  have heven : E * (E + 1) = 2 * (E * (E + 1) / 2) := by
    have : E * (E + 1) % 2 = 0 := by
      rcases Int.emod_two_eq_zero_or_one E with h | h
      · rw [Int.mul_emod, h]; simp
      · rw [Int.mul_emod, Int.add_emod, h]; simp
    omega
  have hT : 0 ≤ E * (E + 1) / 2 := by omega
  have h4 : E * (E + 1) * (runs.length : Int) =
      2 * ((runs.length : Int) * (E * (E + 1) / 2)) := by
    generalize E * (E + 1) / 2 = T at heven
    rw [heven]
    ring
  have hnT : (runs.length : Int) * (E * (E + 1) / 2) ≤ INT64_MAX := by
    have h3 : 0 ≤ (runs.length : Int) * (E * (E + 1) / 2) := by positivity
    omega
  have hsum : runOnceSum (runs.map (fun r => (consume E slot r).localSum)) =
      (runs.length : Int) * (E * (E + 1) / 2) := by
    unfold runOnceSum
    rw [foldl_fetch_add _ 0 (E * (E + 1) / 2) (by
      intro x hx
      obtain ⟨r, hr, rfl⟩ := List.mem_map.mp hx
      exact hlocal r hr) le_rfl hT (by simpa using hnT)]
    simp
  have hdiv : E * (E + 1) * (runs.length : Int) / 2 = (runs.length : Int) * (E * (E + 1) / 2) := by
    omega
  refine ⟨hlocal, hsum, by rw [hsum, hdiv], ?_⟩
  exact printedExpectedSum_ok E _ hE (by positivity) hno1 hno

theorem expectedValueOf_eq (N delta L : Nat) (P : Int) (hP : 0 ≤ P)
    (hno : (N : Int) * delta * L * P < 2 ^ 63) :
    expectedValueOf N delta L P = (N : Int) * delta * L * P - 1 := by
  obtain ⟨Q, rfl⟩ := Int.eq_ofNat_of_zero_le hP
  have hno2 : N * delta * L * Q < 2 ^ 63 := by exact_mod_cast hno
  have hu : u64 (Q : Int) = Q % 2 ^ 64 := by
    unfold u64
    omega
  have hprod : mul64 (mul64 (mul64 N delta) L) (u64 (Q : Int)) = N * delta * L * Q := by
    have hl : ∀ a b : Nat, (a % 2 ^ 64) * b % 2 ^ 64 = a * b % 2 ^ 64 := fun a b => by
      rw [Nat.mul_mod, Nat.mod_mod, ← Nat.mul_mod]
    have hr : ∀ a b : Nat, a * (b % 2 ^ 64) % 2 ^ 64 = a * b % 2 ^ 64 := fun a b => by
      rw [Nat.mul_mod, Nat.mod_mod, ← Nat.mul_mod]
    rw [hu]
    unfold mul64
    rw [hr, hl, Nat.mul_assoc, hl, ← Nat.mul_assoc]
    exact Nat.mod_eq_of_lt (by omega)
  unfold expectedValueOf
  rw [hprod]
  have hcast : (N : Int) * delta * L * (Q : Int) = ((N * delta * L * Q : Nat) : Int) := by
    push_cast; ring
  rw [hcast]
  generalize N * delta * L * Q = x at hno2
  unfold s64 sub64
  split <;> omega

theorem iterations_eq (L N : Nat) (h : L * N < 2 ^ 31) : iterations L N = ((L * N : Nat) : Int) := by
  unfold iterations mul64
  rw [Nat.mod_eq_of_lt (by omega), s32_of_lt _ h]

theorem iterations_le (L N : Nat) (h : L * N < 2 ^ 64) : iterations L N ≤ ((L * N : Nat) : Int) := by
  unfold iterations mul64 s32
  rw [Nat.mod_eq_of_lt h]
  split <;> omega

/-- Every assignment made by the producers is `s[k] = k`. -/
theorem seqInv_writes_identity (delta m : Nat) (s : Sequencer) (inv : SeqInv delta m s)
    (hd : 1 ≤ delta) : ∀ kv ∈ s.writes, kv.2 = kv.1 := by
  intro kv hkv
  rw [inv.writes, List.mem_flatMap] at hkv
  obtain ⟨q, hq, hmem⟩ := hkv
  simp only [claimsOf, List.mem_map, List.mem_range] at hq
  obtain ⟨j, _, rfl⟩ := hq
  have hge : (delta : Int) - 1 ≤ ((j : Int) + 1) * delta - 1 := by
    have : (1 : Int) * delta ≤ ((j : Int) + 1) * delta :=
      mul_le_mul_of_nonneg_right (by omega) (by omega)
    omega
  exact ((mem_batchWrites delta _ kv.1 kv.2 hd hge).mp hmem).1

/-- The producer threads of a run set up by `main`, under any schedule: they
run without fault, and once all have left their loop each has made `L * N`
claims, the claims are the `P * (L * N)` consecutive batches from sequence `0`,
and the last one, also the cursor, is `N * delta * L * P - 1`. -/
theorem run_summary (N delta L P : Nat) (schedule : List Nat) (hdelta : 1 ≤ delta)
    (hguard : delta ≤ N) (hno : N * delta * L * P < 2 ^ 63) (hint : L * N < 2 ^ 31) :
    ∃ p, runProducers delta (iterations L N) schedule (Producers.init P) = .ok p ∧
      RunInv delta P (iterations L N) schedule p ∧
      (∀ kv ∈ p.seqr.writes, kv.2 = kv.1) ∧
      (p.finished (iterations L N) →
        (∀ t, t < P → p.callers.count t = L * N) ∧
        p.seqr.claimed = claimsOf delta (P * (L * N)) ∧
        p.seqr.published = (claimsOf delta (P * (L * N))).map (fun q => (q, delta)) ∧
        (∀ q ∈ p.seqr.claimed, q ≤ (N : Int) * delta * L * P - 1) ∧
        p.seqr.next = (N : Int) * delta * L * P - 1 ∧
        p.seqr.GetCursor = (N : Int) * delta * L * P - 1) := by
  have hit := iterations_eq L N hint
  have hdmax : 0 < iterations L N → (delta : Int) ≤ INT_MAX := by
    intro hpos
    rw [hit] at hpos
    have hL : 0 < L := by
      rcases Nat.eq_zero_or_pos L with h | h
      · rw [h] at hpos; simp at hpos
      · exact h
    have hNle : N ≤ L * N := Nat.le_mul_of_pos_left N hL
    unfold INT_MAX
    omega
  have hprod : (P : Int) * iterations L N * delta = ((N * delta * L * P : Nat) : Int) := by
    rw [hit]; push_cast; ring
  have hmax : (P : Int) * iterations L N * delta - 1 ≤ INT64_MAX := by
    rw [hprod]
    unfold INT64_MAX
    omega
  obtain ⟨p, hrun, inv⟩ :=
    runProducers_ok delta P (iterations L N) schedule (by rw [hit]; omega) hdelta hdmax hmax
  refine ⟨p, hrun, inv, seqInv_writes_identity delta _ p.seqr inv.seqr hdelta, ?_⟩
  intro hfin
  obtain ⟨hcount, hlen⟩ := runInv_finished delta P (iterations L N) schedule p inv hfin
  have hlen2 : p.callers.length = P * (L * N) := by
    rw [hit] at hlen
    exact_mod_cast hlen
  have hnext : p.seqr.next = (N : Int) * delta * L * P - 1 := by
    rw [inv.seqr.next, hlen2]; push_cast; ring
  refine ⟨?_, ?_, ?_, ?_, hnext, ?_⟩
  · intro t ht
    have := hcount t ht
    rw [hit] at this
    exact_mod_cast this
  · rw [inv.seqr.claimed, hlen2]
  · rw [inv.seqr.published, hlen2]
  · intro q hq
    rw [inv.seqr.claimed] at hq
    have := mem_claimsOf_le delta _ q hq
    rw [← inv.seqr.next, hnext] at this
    exact this
  · rw [Sequencer.GetCursor, inv.seqr.cursor, hnext]

theorem main_ok (num_prod num_cons : Int) (batch_size looper ring_buffer_size : Nat) (multi : Int)
    (hguard : batch_size ≤ ring_buffer_size) :
    main num_prod num_cons batch_size looper ring_buffer_size multi =
      .ok { RING_BUFFER_SIZE := ring_buffer_size, counter := looper, delta := batch_size,
            np := if multi = 0 then 1 else num_prod, nc := num_cons,
            expectedValue := expectedValueOf ring_buffer_size batch_size looper num_prod } := by
  unfold main
  rw [if_neg (by omega)]

/-- When `main` gets to its calls of `runOnce`, the batch size has passed the
test against the ring size and the globals are as assigned. -/
theorem main_of_ok (num_prod num_cons : Int) (batch_size looper ring_buffer_size : Nat)
    (multi : Int) (g : Globals)
    (h : main num_prod num_cons batch_size looper ring_buffer_size multi = .ok g) :
    batch_size ≤ ring_buffer_size ∧
      g = { RING_BUFFER_SIZE := ring_buffer_size, counter := looper, delta := batch_size,
            np := if multi = 0 then 1 else num_prod, nc := num_cons,
            expectedValue := expectedValueOf ring_buffer_size batch_size looper num_prod } := by
  by_cases hguard : batch_size ≤ ring_buffer_size
  · rw [main_ok _ _ _ _ _ _ hguard] at h
    exact ⟨hguard, (Except.ok.inj h).symm⟩
  · unfold main at h
    rw [if_pos (by omega)] at h
    cases h

/-! ## The claims about `produce`, `runOnce` and `main` -/

/-- C1: for every ring size `N`, batch size `delta ≥ 1`, loop count `L` and
producer count `P` with `multi` in `{1, 2}`, no 64-bit overflow and
`L * N < 2^31`, in the runs that `main` starts: `np = P` and
`expectedValue = N * delta * L * P - 1`; each producer thread makes exactly
`L * N` calls of `Claim(delta)`; with `Claim` handing out consecutive disjoint
batches from sequence `0`, the highest sequence claimed in the whole run is
`N * delta * L * P - 1`, the `expectedValue` of the driver. -/
theorem producers_claim_up_to_expectedValue (N delta L P : Nat) (nc multi : Int) (g : Globals)
    (schedule : List Nat) (hdelta : 1 ≤ delta) (hmulti : multi = 1 ∨ multi = 2)
    (hno : N * delta * L * P < 2 ^ 63) (hint : L * N < 2 ^ 31)
    (hmain : main P nc delta L N multi = .ok g) :
    g.np = P ∧ g.expectedValue = (N : Int) * delta * L * P - 1 ∧
      iterations g.counter g.RING_BUFFER_SIZE = ((L * N : Nat) : Int) ∧
      ∃ p, runProducers g.delta (iterations g.counter g.RING_BUFFER_SIZE) schedule
            (Producers.init g.np.toNat) = .ok p ∧
        (p.finished (iterations g.counter g.RING_BUFFER_SIZE) →
          (∀ t, t < P → p.callers.count t = L * N) ∧
          p.seqr.claimed = claimsOf delta (P * (L * N)) ∧
          (∀ q ∈ p.seqr.claimed, q ≤ g.expectedValue) ∧
          p.seqr.claimed.getLastD kInitialCursorValue = g.expectedValue ∧
          p.seqr.next = g.expectedValue) := by
  obtain ⟨hguard, hg⟩ := main_of_ok _ _ _ _ _ _ g hmain
  have hm0 : multi ≠ 0 := by omega
  have hE : expectedValueOf N delta L (P : Int) = (N : Int) * delta * L * P - 1 :=
    expectedValueOf_eq N delta L P (by omega) (by exact_mod_cast hno)
  rw [if_neg hm0, hE] at hg
  subst hg
  simp only [Int.toNat_ofNat]
  refine ⟨trivial, trivial, iterations_eq L N hint, ?_⟩
  obtain ⟨p, hrun, inv, _, himp⟩ := run_summary N delta L P schedule hdelta hguard hno hint
  refine ⟨p, hrun, fun hfin => ?_⟩
  obtain ⟨h1, h2, _, h4, h5, _⟩ := himp hfin
  refine ⟨h1, h2, h4, ?_, h5⟩
  rw [h2]
  rcases Nat.eq_zero_or_pos (P * (L * N)) with h0 | hpos
  · have hz : (N : Int) * delta * L * P = 0 := by
      have : ((P * (L * N) : Nat) : Int) = 0 := by rw [h0]; rfl
      push_cast at this
      calc (N : Int) * delta * L * P = delta * ((P : Int) * ((L : Int) * N)) := by ring
        _ = 0 := by rw [this]; ring
    rw [h0, hz]
    rfl
  · obtain ⟨m, hm⟩ : ∃ m, P * (L * N) = m + 1 := ⟨P * (L * N) - 1, by omega⟩
    rw [hm, claimsOf_succ, List.getLastD_concat]
    have : ((m : Int) + 1) = ((P * (L * N) : Nat) : Int) := by rw [hm]; push_cast; ring
    rw [this]
    push_cast
    ring

theorem producers_claim_up_to_expectedValue_witness :
    (1 ≤ 8 ∧ 1024 * 8 * 10 * 4 < 2 ^ 63 ∧ 10 * 1024 < 2 ^ 31) ∧
      main 4 2 8 10 1024 1 =
        .ok { RING_BUFFER_SIZE := 1024, counter := 10, delta := 8, np := 4, nc := 2,
              expectedValue := 327679 } ∧
      ∃ p, runProducers 8 (iterations 10 1024)
            (List.replicate 10240 0 ++ List.replicate 10240 1 ++ List.replicate 10240 2 ++
              List.replicate 10240 3) (Producers.init 4) = .ok p ∧
        p.finished (iterations 10 1024) ∧ p.seqr.next = 327679 := by
  have hmain : main 4 2 8 10 1024 1 =
      .ok { RING_BUFFER_SIZE := 1024, counter := 10, delta := 8, np := 4, nc := 2,
            expectedValue := 327679 } := by decide
  obtain ⟨_, _, hit, p, hrun, himp⟩ :=
    producers_claim_up_to_expectedValue 1024 8 10 4 2 1 _
      (List.replicate 10240 0 ++ List.replicate 10240 1 ++ List.replicate 10240 2 ++
        List.replicate 10240 3) (by decide) (Or.inl rfl) (by decide) (by decide) hmain
  obtain ⟨p', hrun', inv, _⟩ :=
    run_summary 1024 8 10 4
      (List.replicate 10240 0 ++ List.replicate 10240 1 ++ List.replicate 10240 2 ++
        List.replicate 10240 3) (by decide) (by decide) (by decide) (by decide)
  have hpp : p' = p := by
    rw [show ((4 : Int).toNat) = 4 from rfl] at hrun
    rw [hrun] at hrun'
    exact (Except.ok.inj hrun').symm
  subst hpp
  have hfin : p'.finished (iterations 10 1024) := by
    apply runInv_finished_of_count 8 4 (iterations 10 1024) _ p' inv
    intro t ht
    rw [hit]
    interval_cases t <;> simp only [List.count_append, List.count_replicate] <;> decide
  exact ⟨by decide, hmain, p', hrun', hfin, (himp hfin).2.2.2.2⟩

/-- C4, as amended: with 4 producers, 2 consumers, ring size 1024, batch size 8
and loop 10 (claim strategy v1 or v2), `expectedValue` is 327,679, the cursor
after all producers have finished is 327,679, and a consumer that leaves its
loop has added up the values `0 .. 327,679`, which is `327,679 * 327,680 / 2 =
53,686,927,360`. -/
theorem scenario_4P_2C (multi : Int) (schedule : List Nat) (results : List (Int × Int))
    (hmulti : multi = 1 ∨ multi = 2) :
    main 4 2 8 10 1024 multi =
        .ok { RING_BUFFER_SIZE := 1024, counter := 10, delta := 8, np := 4, nc := 2,
              expectedValue := 327679 } ∧
      (∃ p, runProducers 8 (iterations 10 1024) schedule (Producers.init 4) = .ok p ∧
        (∀ kv ∈ p.seqr.writes, kv.2 = kv.1) ∧
        (p.finished (iterations 10 1024) → p.seqr.GetCursor = 327679)) ∧
      ((consume 327679 (fun k => k) results).exited = true →
        readsOf (consume 327679 (fun k => k) results).trace = upTo 327680 ∧
        (consume 327679 (fun k => k) results).localSum = 327679 * 327680 / 2 ∧
        (consume 327679 (fun k => k) results).localSum = 53686927360) := by
  have hm0 : multi ≠ 0 := by omega
  refine ⟨?_, ?_, ?_⟩
  · rw [main_ok _ _ _ _ _ _ (by decide), if_neg hm0]
    have : expectedValueOf 1024 8 10 4 = 327679 := by decide
    rw [this]
  · obtain ⟨p, hrun, _, hw, himp⟩ :=
      run_summary 1024 8 10 4 schedule (by decide) (by decide) (by decide) (by decide)
    refine ⟨p, hrun, hw, fun hfin => ?_⟩
    rw [(himp hfin).2.2.2.2.2]
    norm_num
  · intro hex
    have h1 := (consumerInv_consume 327679 (fun k => k) results).reads
    unfold Consumer.bound at h1
    rw [hex] at h1
    have h2 := (localSum_of_exited 327679 (fun k => k) (fun _ => rfl) results hex).2.2
    have h3 : (327679 : Int) + 1 = 327680 := by norm_num
    rw [if_pos rfl, h3] at h1
    refine ⟨h1, ?_, ?_⟩
    · rw [h2]; norm_num
    · rw [h2]; norm_num

theorem scenario_4P_2C_witness :
    ((1 : Int) = 1 ∨ (1 : Int) = 2) ∧
      (∃ p, runProducers 8 (iterations 10 1024)
            (List.replicate 10240 3 ++ List.replicate 10240 2 ++ List.replicate 10240 1 ++
              List.replicate 10240 0) (Producers.init 4) = .ok p ∧
        p.finished (iterations 10 1024) ∧ p.seqr.GetCursor = 327679) ∧
      (consume 327679 (fun k => k) [(327679, 327679)]).exited = true ∧
      (consume 327679 (fun k => k) [(327679, 327679)]).localSum = 53686927360 := by
  obtain ⟨_, ⟨p, hrun, _, himp⟩, hsum⟩ :=
    scenario_4P_2C 1
      (List.replicate 10240 3 ++ List.replicate 10240 2 ++ List.replicate 10240 1 ++
        List.replicate 10240 0) [(327679, 327679)] (Or.inl rfl)
  obtain ⟨p', hrun', inv, _⟩ :=
    run_summary 1024 8 10 4
      (List.replicate 10240 3 ++ List.replicate 10240 2 ++ List.replicate 10240 1 ++
        List.replicate 10240 0) (by decide) (by decide) (by decide) (by decide)
  have hpp : p' = p := by
    rw [hrun] at hrun'
    exact (Except.ok.inj hrun').symm
  subst hpp
  have hfin : p'.finished (iterations 10 1024) := by
    apply runInv_finished_of_count 8 4 (iterations 10 1024) _ p' inv
    intro t ht
    rw [iterations_eq 10 1024 (by decide)]
    interval_cases t <;> simp only [List.count_append, List.count_replicate] <;> decide
  have hex := consume_exits 327679 (fun k => k) (by decide)
  exact ⟨Or.inl rfl, ⟨p', hrun, hfin, himp hfin⟩, hex, (hsum hex).2.2⟩

/-- C4 as first stated fails: a consumer of the 4-producer scenario that leaves
its loop has summed the values `0 .. 327,679` to `327,679 * 327,680 / 2 =
53,686,927,360`, which is not 53,687,746,560. -/
theorem scenario_4P_2C_sum_counterexample :
    expectedValueOf 1024 8 10 4 = 327679 ∧
      (consume (expectedValueOf 1024 8 10 4) (fun k => k) [(327679, 327679)]).exited = true ∧
      (consume (expectedValueOf 1024 8 10 4) (fun k => k) [(327679, 327679)]).localSum ≠
        53687746560 ∧
      ((327679 : Int) * 327680 / 2 ≠ 53687746560) := by
  have hE : expectedValueOf 1024 8 10 4 = 327679 := by decide
  rw [hE]
  have hex := consume_exits 327679 (fun k => k) (by decide)
  refine ⟨rfl, hex, ?_, by norm_num⟩
  rw [(localSum_of_exited 327679 (fun k => k) (fun _ => rfl) _ hex).2.2]
  norm_num

/-- C5, as amended: with 1 producer, 3 consumers, ring size 16, batch size 4
and loop 100, `expectedValue` and the final cursor are 6399; each of the three
consumers accumulates in its own `localSum` the sum `6399 * 6400 / 2 =
20,476,800`, and it is the global `sum` over the three consumers that equals
`3 * (16*4*100*1 - 1) * (16*4*100*1) / 2 = 61,430,400`, the printed expected
sum. -/
theorem scenario_1P_3C (multi : Int) (schedule : List Nat) (runs : List (List (Int × Int)))
    (hlen : runs.length = 3)
    (hexit : ∀ r ∈ runs, (consume 6399 (fun k => k) r).exited = true) :
    main 1 3 4 100 16 multi =
        .ok { RING_BUFFER_SIZE := 16, counter := 100, delta := 4, np := 1, nc := 3,
              expectedValue := 6399 } ∧
      (∃ p, runProducers 4 (iterations 100 16) schedule (Producers.init 1) = .ok p ∧
        (p.finished (iterations 100 16) → p.seqr.GetCursor = 6399)) ∧
      (∀ r ∈ runs, (consume 6399 (fun k => k) r).localSum = 6399 * 6400 / 2 ∧
        (consume 6399 (fun k => k) r).localSum = 20476800) ∧
      runOnceSum (runs.map (fun r => (consume 6399 (fun k => k) r).localSum)) =
        3 * (16 * 4 * 100 * 1 - 1) * (16 * 4 * 100 * 1) / 2 ∧
      runOnceSum (runs.map (fun r => (consume 6399 (fun k => k) r).localSum)) = 61430400 ∧
      printedExpectedSum 6399 3 = .ok 61430400 := by
  obtain ⟨h1, h2, h3, h4⟩ :=
    consumers_sum_core 6399 (fun k => k) runs (by decide) (fun _ => rfl) hexit
      (by decide) (by rw [hlen]; decide)
  rw [hlen] at h2 h3 h4
  refine ⟨?_, ?_, ?_, ?_, ?_, ?_⟩
  · rw [main_ok _ _ _ _ _ _ (by decide)]
    have : expectedValueOf 16 4 100 1 = 6399 := by decide
    rw [this]
    simp
  · obtain ⟨p, hrun, _, _, himp⟩ :=
      run_summary 16 4 100 1 schedule (by decide) (by decide) (by decide) (by decide)
    refine ⟨p, hrun, fun hfin => ?_⟩
    rw [(himp hfin).2.2.2.2.2]
    norm_num
  · intro r hr
    rw [h1 r hr]
    norm_num
  · rw [h2]; norm_num
  · rw [h2]; norm_num
  · norm_num at h4
    exact h4

theorem scenario_1P_3C_witness :
    [[((6399 : Int), (6399 : Int))], [(-1, 0), (6399, 6399)], [(6399, 6399), (0, 0)]].length = 3 ∧
      (consume 6399 (fun k => k) [(-1, 0), (6399, 6399)]).localSum = 20476800 ∧
      runOnceSum ([[((6399 : Int), (6399 : Int))], [(-1, 0), (6399, 6399)],
        [(6399, 6399), (0, 0)]].map (fun r => (consume 6399 (fun k => k) r).localSum)) =
          61430400 := by
  have hex : ∀ r ∈ [[((6399 : Int), (6399 : Int))], [(-1, 0), (6399, 6399)],
      [(6399, 6399), (0, 0)]], (consume 6399 (fun k => k) r).exited = true := by
    have h0 := consume_exits 6399 (fun k => k) (by decide)
    intro r hr
    simp only [List.mem_cons, List.mem_singleton, List.not_mem_nil, or_false] at hr
    rcases hr with rfl | rfl | rfl
    · exact h0
    · have hstep : consumeStep 6399 (fun k => k) (-1) 0 Consumer.init =
          { Consumer.init with trace := [Event.waitFor 0] } := by decide
      have hcons : consume 6399 (fun k => k) [(-1, 0), (6399, 6399)] =
          consumeLoop 6399 (fun k => k) [(6399, 6399)]
            { Consumer.init with trace := [Event.waitFor 0] } := by
        rw [consume, consumeLoop, ← hstep]
        rfl
      rw [hcons, consumeLoop]
      simp only [Consumer.init, Bool.false_eq_true, if_false, consumeLoop]
      rw [consumeStep_batch 6399 _ 6399 6399 _ (by decide) (by decide)]
      simp
    · rw [consume, consumeLoop] at h0 ⊢
      simp only [Consumer.init, Bool.false_eq_true, if_false, consumeLoop] at h0 ⊢
      rw [h0]
      simpa using h0
  obtain ⟨_, _, h3, _, h5, _⟩ :=
    scenario_1P_3C 0 [] [[(6399, 6399)], [(-1, 0), (6399, 6399)], [(6399, 6399), (0, 0)]] rfl hex
  exact ⟨rfl, (h3 _ (by simp)).2, h5⟩

/-- C5 as first stated fails: a consumer of the 1-producer, 3-consumer
scenario that leaves its loop has `localSum = 20,476,800`, not
`3 * (16*4*100*1 - 1) * (16*4*100*1) / 2 = 61,430,400`. -/
theorem scenario_1P_3C_localSum_counterexample :
    (consume (expectedValueOf 16 4 100 1) (fun k => k) [(6399, 6399)]).exited = true ∧
      (consume (expectedValueOf 16 4 100 1) (fun k => k) [(6399, 6399)]).localSum ≠
        3 * (16 * 4 * 100 * 1 - 1) * (16 * 4 * 100 * 1) / 2 := by
  have hE : expectedValueOf 16 4 100 1 = 6399 := by decide
  rw [hE]
  have hex := consume_exits 6399 (fun k => k) (by decide)
  refine ⟨hex, ?_⟩
  rw [(localSum_of_exited 6399 (fun k => k) (fun _ => rfl) _ hex).2.2]
  norm_num

/-- C9: when `multi = 0` and `num_prod = p > 1` (with `N`, `delta`, `loop ≥ 1`
and no overflow), in the runs that `main` starts the global `np` is still `1`,
so `runOnce` starts one producer thread, while `expectedValue` has been
computed from `p` as `N * delta * loop * p - 1`; the single producer claims
sequences only up to `N * delta * loop - 1`, strictly below `expectedValue`, so
no claimed sequence ever satisfies the consumer's exit test
`available_seq == expectedValue`. -/
theorem single_producer_never_reaches_expectedValue (N delta L : Nat) (p nc : Int) (g : Globals)
    (schedule : List Nat) (hN : 1 ≤ N) (hdelta : 1 ≤ delta) (hL : 1 ≤ L) (hp : 1 < p)
    (hno : (N : Int) * delta * L * p < 2 ^ 63) (hint : L * N < 2 ^ 31)
    (hmain : main p nc delta L N 0 = .ok g) :
    g.np = 1 ∧ g.expectedValue = (N : Int) * delta * L * p - 1 ∧
      (∃ s, produce g.counter g.RING_BUFFER_SIZE g.delta Sequencer.init = .ok s ∧
        s.claimed = claimsOf delta (L * N) ∧
        s.next = (N : Int) * delta * L - 1 ∧ s.GetCursor = (N : Int) * delta * L - 1 ∧
        s.next < g.expectedValue ∧
        ∀ q ∈ s.claimed, q < g.expectedValue) ∧
      (∃ pr, runProducers g.delta (iterations g.counter g.RING_BUFFER_SIZE) schedule
            (Producers.init g.np.toNat) = .ok pr ∧
        ∀ q ∈ pr.seqr.claimed, q < g.expectedValue) := by
  obtain ⟨hguard, hg⟩ := main_of_ok _ _ _ _ _ _ g hmain
  have hit := iterations_eq L N hint
  have hpos : 0 < (N : Int) * delta * L := by positivity
  have hlt : (N : Int) * delta * L - 1 < (N : Int) * delta * L * p - 1 := by nlinarith
  have hNle : N ≤ L * N := Nat.le_mul_of_pos_left N hL
  have hdmax : (delta : Int) ≤ INT_MAX := by unfold INT_MAX; omega
  have hbound : (N : Int) * delta * L < 2 ^ 63 := by nlinarith
  have hE : expectedValueOf N delta L p = (N : Int) * delta * L * p - 1 :=
    expectedValueOf_eq N delta L p (by omega) hno
  rw [if_pos rfl, hE] at hg
  subst hg
  have h1n : (1 : Int).toNat = 1 := rfl
  simp only [h1n]
  refine ⟨trivial, trivial, ?_, ?_⟩
  · have htn : (iterations L N - 0).toNat = L * N := by
      rw [hit, sub_zero]
      exact Int.toNat_ofNat _
    obtain ⟨s, hs, inv⟩ := produceLoop_ok delta (iterations L N) ((iterations L N).toNat + 1) 0 0
      Sequencer.init (seqInv_init delta) hdelta hdmax
      (by
        rw [htn]
        unfold INT64_MAX
        have : (((0 : Nat) : Int) + ((L * N : Nat) : Int)) * delta = (N : Int) * delta * L := by
          push_cast; ring
        rw [this]
        omega)
      (by simp)
    rw [htn, Nat.zero_add] at inv
    have hnext : s.next = (N : Int) * delta * L - 1 := by
      rw [inv.next]; push_cast; ring
    refine ⟨s, hs, inv.claimed, hnext, by rw [Sequencer.GetCursor, inv.cursor, hnext],
      by rw [hnext]; exact hlt, ?_⟩
    intro q hq
    rw [inv.claimed] at hq
    have := mem_claimsOf_le delta _ q hq
    rw [← inv.next, hnext] at this
    omega
  · obtain ⟨pr, hrun, inv⟩ := runProducers_ok delta 1 (iterations L N) schedule
      (by rw [hit]; omega) hdelta (fun _ => hdmax)
      (by
        rw [hit]
        unfold INT64_MAX
        have : ((1 : Nat) : Int) * ((L * N : Nat) : Int) * delta = (N : Int) * delta * L := by
          push_cast; ring
        rw [this]
        omega)
    refine ⟨pr, hrun, ?_⟩
    intro q hq
    rw [inv.seqr.claimed] at hq
    have h1 := mem_claimsOf_le delta _ q hq
    have h2 : (pr.callers.length : Int) ≤ ((1 : Nat) : Int) * iterations L N := by
      have hlen : pr.i.length = 1 := by rw [inv.i_eq, loopVars_length]
      have hle : ∀ x ∈ pr.i, x ≤ iterations L N := by
        rw [inv.i_eq]; exact loopVars_le 1 (iterations L N) schedule
      have := sum_le_length_mul pr.i (iterations L N) hle
      rw [hlen] at this
      rw [inv.total]
      exact this
    rw [hit] at h2
    have h3 : (pr.callers.length : Int) * delta ≤ (N : Int) * delta * L := by
      have : (pr.callers.length : Int) * delta ≤ (((1 : Nat) : Int) * ((L * N : Nat) : Int)) * delta :=
        mul_le_mul_of_nonneg_right h2 (by omega)
      calc (pr.callers.length : Int) * delta
          ≤ (((1 : Nat) : Int) * ((L * N : Nat) : Int)) * delta := this
        _ = (N : Int) * delta * L := by push_cast; ring
    omega

theorem single_producer_never_reaches_expectedValue_witness :
    (1 ≤ 8 ∧ 1 ≤ 2 ∧ 1 ≤ 4 ∧ (1 : Int) < 3) ∧
      main 3 1 2 4 8 0 =
        .ok { RING_BUFFER_SIZE := 8, counter := 4, delta := 2, np := 1, nc := 1,
              expectedValue := 191 } ∧
      ∃ s, produce 4 8 2 Sequencer.init = .ok s ∧ s.next = 63 ∧
        ∀ q ∈ s.claimed, q < 191 := by
  have hmain : main 3 1 2 4 8 0 =
      .ok { RING_BUFFER_SIZE := 8, counter := 4, delta := 2, np := 1, nc := 1,
            expectedValue := 191 } := by decide
  obtain ⟨_, _, ⟨s, hs, _, hnext, _, _, hq⟩, _⟩ :=
    single_producer_never_reaches_expectedValue 8 2 4 3 1 _ [] (by decide) (by decide)
      (by decide) (by decide) (by decide) (by decide) hmain
  norm_num at hnext
  exact ⟨by decide, hmain, s, hs, hnext, hq⟩

end Disruptor
